import Mathlib

/-!
Verification development for the document-ingestion and field-extraction
pipeline of the `ai-document-analyser` HTTP service.

The JavaScript source is shallowly embedded:
* `safeParseJson`, `extractFields`, `formatHistoryForPrompt`,
  `extractTextFromFile` come from `src/geminiService.js`;
* the `/api/upload`, `/api/ask` and `/api/history/clear` request handlers
  come from the server file (`src/unnamed/part_000`).

External collaborators (the Gemini model, the filesystem, `pdf-parse`) are
modelled as oracles: each awaited call is a parameter of type
`Except Unit _`, where `Except.error ()` models the call throwing.
JavaScript's `JSON.parse` and the fence regex
`/(three backticks)(?:json)?\s*([\s\S]*?)\s*(three backticks)/i` are
reimplemented below, following ECMA-404/ECMA-262 semantics.  Two known
abstractions: string length counts Unicode code points (JS counts UTF-16
units; all inputs used in the theorems are ASCII, where the two agree),
and JSON numbers are kept as their source lexeme instead of being
converted to IEEE doubles (no theorem below depends on conflating two
lexemes that denote the same double).
-/

/-- JSON whitespace accepted by `JSON.parse` around tokens:
space, tab, line feed, carriage return (ECMA-404). -/
def isJsonWs (c : Char) : Bool :=
  c.toNat = 32 || c.toNat = 9 || c.toNat = 10 || c.toNat = 13

/-- JavaScript WhiteSpace ∪ LineTerminator: the character class of the
regex escape `\s`, and also the set trimmed by `String.prototype.trim`. -/
def isJsWs (c : Char) : Bool :=
  c.toNat = 9 || c.toNat = 10 || c.toNat = 11 || c.toNat = 12 || c.toNat = 13 ||
  c.toNat = 32 || c.toNat = 160 || c.toNat = 5760 ||
  (8192 ≤ c.toNat && c.toNat ≤ 8202) ||
  c.toNat = 8232 || c.toNat = 8233 || c.toNat = 8239 || c.toNat = 8287 ||
  c.toNat = 12288 || c.toNat = 65279

/-- ASCII decimal digit. -/
def isDigit (c : Char) : Bool :=
  48 ≤ c.toNat && c.toNat ≤ 57

/-- Drop leading JSON whitespace (the token separator of `JSON.parse`). -/
def skipWs (l : List Char) : List Char :=
  l.dropWhile isJsonWs

/-- Remove trailing JS whitespace (the tail half of `String.prototype.trim`,
also used to model what the lazy fence regex leaves out of its capture). -/
def stripTrailingWs (l : List Char) : List Char :=
  (l.reverse.dropWhile isJsWs).reverse

/-- `String.prototype.trim`. -/
def jsTrim (s : String) : String :=
  String.mk (stripTrailingWs (s.data.dropWhile isJsWs))

/-- The value space of `JSON.parse`.  Object members keep source order
and duplicates; numbers keep their lexeme (see the header comment). -/
inductive Json where
  | null
  | bool (b : Bool)
  | num (lexeme : String)
  | str (s : String)
  | arr (elems : List Json)
  | obj (members : List (String × Json))

/-- Hexadecimal digit value, for the `\uXXXX` string escape. -/
def hexVal (c : Char) : Option Nat :=
  if 48 ≤ c.toNat && c.toNat ≤ 57 then some (c.toNat - 48)
  else if 97 ≤ c.toNat && c.toNat ≤ 102 then some (c.toNat - 87)
  else if 65 ≤ c.toNat && c.toNat ≤ 70 then some (c.toNat - 55)
  else none

/-- Body of a JSON string literal, after the opening quote.  Processes the
escapes `\" \\ \/ \b \f \n \r \t \uXXXX`, rejects raw control characters
below U+0020, and stops at the closing quote, returning the decoded string
and the unconsumed input. -/
def parseStringBody (acc : List Char) : List Char → Option (String × List Char)
  | [] => none
  | c :: t =>
    if c = '"' then some (String.mk acc.reverse, t)
    else if c = '\\' then
      match t with
      | [] => none
      | e :: t2 =>
        if e = '"' then parseStringBody ('"' :: acc) t2
        else if e = '\\' then parseStringBody ('\\' :: acc) t2
        else if e = '/' then parseStringBody ('/' :: acc) t2
        else if e = 'b' then parseStringBody (Char.ofNat 8 :: acc) t2
        else if e = 'f' then parseStringBody (Char.ofNat 12 :: acc) t2
        else if e = 'n' then parseStringBody (Char.ofNat 10 :: acc) t2
        else if e = 'r' then parseStringBody (Char.ofNat 13 :: acc) t2
        else if e = 't' then parseStringBody (Char.ofNat 9 :: acc) t2
        else if e = 'u' then
          match t2 with
          | h1 :: h2 :: h3 :: h4 :: t3 =>
            match hexVal h1, hexVal h2, hexVal h3, hexVal h4 with
            | some a, some b, some c2, some d2 =>
              parseStringBody (Char.ofNat (((a * 16 + b) * 16 + c2) * 16 + d2) :: acc) t3
            | _, _, _, _ => none
          | _ => none
        else none
    else if c.toNat < 32 then none
    else parseStringBody (c :: acc) t

/-- Split off a (possibly empty) run of leading decimal digits. -/
def takeDigits (l : List Char) : List Char × List Char :=
  (l.takeWhile isDigit, l.dropWhile isDigit)

/-- Optional exponent part of a JSON number; `acc` is the lexeme so far. -/
def numExpPart (acc : List Char) : List Char → Option (Json × List Char)
  | [] => some (Json.num (String.mk acc), [])
  | c :: t =>
    if c = 'e' || c = 'E' then
      match t with
      | [] => none
      | s :: t2 =>
        if s = '+' || s = '-' then
          match takeDigits t2 with
          | ([], _) => none
          | (ds, r) => some (Json.num (String.mk (acc ++ c :: s :: ds)), r)
        else
          match takeDigits t with
          | ([], _) => none
          | (ds, r) => some (Json.num (String.mk (acc ++ c :: ds)), r)
    else some (Json.num (String.mk acc), c :: t)

/-- Optional fraction part of a JSON number, then the exponent part. -/
def numFracPart (acc : List Char) : List Char → Option (Json × List Char)
  | [] => some (Json.num (String.mk acc), [])
  | c :: t =>
    if c = '.' then
      match takeDigits t with
      | ([], _) => none
      | (ds, r) => numExpPart (acc ++ c :: ds) r
    else numExpPart acc (c :: t)

/-- JSON number: `-? (0 | [1-9][0-9]*) frac? exp?` (leading zeros rejected,
exactly as `JSON.parse` does). -/
def parseNumber : List Char → Option (Json × List Char)
  | [] => none
  | c :: t =>
    if c = '-' then
      match t with
      | [] => none
      | d :: t2 =>
        if d = '0' then numFracPart ['-', '0'] t2
        else if isDigit d then
          match takeDigits t2 with
          | (ds, r) => numFracPart ('-' :: d :: ds) r
        else none
    else if c = '0' then numFracPart ['0'] t
    else if isDigit c then
      match takeDigits t with
      | (ds, r) => numFracPart (c :: ds) r
    else none

/-- Opening brace, written via its code point so that the character does
not occur literally in this file. -/
def lbrace : Char := Char.ofNat 123

/-- Closing brace. -/
def rbrace : Char := Char.ofNat 125

/-- Parser mode: a whole value, the member list of an object (after at
least one member is known to follow), or the element list of an array. -/
inductive PMode where
  | value
  | members (acc : List (String × Json))
  | elements (acc : List Json)

/-- The recursive core of `JSON.parse`.  Fuel-indexed so that the
recursion is structural; every recursive call consumes at least one input
character first, so fuel `length + 1` never runs out. -/
def parseCore : Nat → PMode → List Char → Option (Json × List Char)
  | 0, _, _ => none
  | fuel + 1, PMode.value, l =>
    match l with
    | [] => none
    | c :: t =>
      if c = lbrace then
        match skipWs t with
        | [] => none
        | r :: t2 =>
          if r = rbrace then some (Json.obj [], t2)
          else parseCore fuel (PMode.members []) (r :: t2)
      else if c = '[' then
        match skipWs t with
        | [] => none
        | r :: t2 =>
          if r = ']' then some (Json.arr [], t2)
          else parseCore fuel (PMode.elements []) (r :: t2)
      else if c = '"' then
        match parseStringBody [] t with
        | some (s, r) => some (Json.str s, r)
        | none => none
      else if c = 't' then
        match t with
        | 'r' :: 'u' :: 'e' :: r => some (Json.bool true, r)
        | _ => none
      else if c = 'f' then
        match t with
        | 'a' :: 'l' :: 's' :: 'e' :: r => some (Json.bool false, r)
        | _ => none
      else if c = 'n' then
        match t with
        | 'u' :: 'l' :: 'l' :: r => some (Json.null, r)
        | _ => none
      else if c = '-' || isDigit c then parseNumber (c :: t)
      else none
  | fuel + 1, PMode.members acc, l =>
    match l with
    | [] => none
    | c :: t =>
      if c = '"' then
        match parseStringBody [] t with
        | none => none
        | some (k, r1) =>
          match skipWs r1 with
          | [] => none
          | c2 :: r2 =>
            if c2 = ':' then
              match parseCore fuel PMode.value (skipWs r2) with
              | none => none
              | some (v, r3) =>
                match skipWs r3 with
                | [] => none
                | c3 :: r4 =>
                  if c3 = ',' then
                    parseCore fuel (PMode.members (acc ++ [(k, v)])) (skipWs r4)
                  else if c3 = rbrace then some (Json.obj (acc ++ [(k, v)]), r4)
                  else none
            else none
      else none
  | fuel + 1, PMode.elements acc, l =>
    match parseCore fuel PMode.value l with
    | none => none
    | some (v, r) =>
      match skipWs r with
      | [] => none
      | c :: r2 =>
        if c = ',' then parseCore fuel (PMode.elements (acc ++ [v])) (skipWs r2)
        else if c = ']' then some (Json.arr (acc ++ [v]), r2)
        else none

/-- `JSON.parse`: returns `none` where the JavaScript builtin throws a
`SyntaxError`.  The whole input must be consumed up to trailing JSON
whitespace. -/
def parseJson (s : String) : Option Json :=
  match parseCore ((skipWs s.data).length + 1) PMode.value (skipWs s.data) with
  | some (v, r) => if skipWs r = [] then some v else none
  | none => none

/-- The backtick character, written via its code point so that it does not
occur literally outside string literals in this file. -/
def isBacktick (c : Char) : Bool := c.toNat = 96

/-- Does the list start with three backticks? -/
def beginsTriple (l : List Char) : Bool :=
  match l with
  | a :: t =>
    isBacktick a &&
      (match t with
       | b :: t2 =>
         isBacktick b && (match t2 with | c :: _ => isBacktick c | [] => false)
       | [] => false)
  | [] => false

/-- Any occurrence of three consecutive backticks? -/
def hasTripleB : List Char → Bool
  | [] => false
  | c :: t => beginsTriple (c :: t) || hasTripleB t

/-- Index of the first occurrence of three consecutive backticks. -/
def findTriple : List Char → Option Nat
  | [] => none
  | c :: t =>
    if beginsTriple (c :: t) then some 0
    else Option.map Nat.succ (findTriple t)

/-- Case-insensitive match of the literal `json` at the head of the list
(the `(?:json)?` group of the fence regex, under the `i` flag). -/
def startsJsonCI (l : List Char) : Bool :=
  match l with
  | [] => false
  | c1 :: t1 =>
    (c1 = 'j' || c1 = 'J') &&
      (match t1 with
       | [] => false
       | c2 :: t2 =>
         (c2 = 's' || c2 = 'S') &&
           (match t2 with
            | [] => false
            | c3 :: t3 =>
              (c3 = 'o' || c3 = 'O') &&
                (match t3 with
                 | [] => false
                 | c4 :: _ => c4 = 'n' || c4 = 'N')))

/-- The tail `\s*([\s\S]*?)\s*` + closing fence of the regex, matched
against the input after the opening fence (and optional tag).  The first
`\s*` is greedy, the group is lazy, so the capture is the input up to the
first closing triple backtick, stripped of surrounding `\s` characters. -/
def tailMatch (l2 : List Char) : Option (List Char) :=
  let m := l2.dropWhile isJsWs
  match findTriple m with
  | none => none
  | some p => some (stripTrailingWs (m.take p))

/-- One attempt of the fence regex at the current position: an opening
triple backtick, then `(?:json)?` (greedy: tried with the tag first, the
untagged alternative only on failure), then `tailMatch`. -/
def tryFenceAt : List Char → Option (List Char)
  | a :: b :: c :: t =>
    if isBacktick a && isBacktick b && isBacktick c then
      if startsJsonCI t then
        match tailMatch (t.drop 4) with
        | some r => some r
        | none => tailMatch t
      else tailMatch t
    else none
  | _ => none

/-- Leftmost-match search of the fence regex
`/(three backticks)(?:json)?\s*([\s\S]*?)\s*(three backticks)/i`
over the whole reply; returns the first capture group. -/
def extractFence : List Char → Option (List Char)
  | [] => none
  | c :: t =>
    match tryFenceAt (c :: t) with
    | some r => some r
    | none => extractFence t

/-- `safeParseJson` (src/geminiService.js:65-76): direct `JSON.parse`,
else parse the first fenced block, else fall back to
`(raw : trimmed original text)` as a one-member object. -/
def safeParseJson (text : String) : Json :=
  match parseJson text with
  | some v => v
  | none =>
    match extractFence text.data with
    | some cap =>
      match parseJson (String.mk cap) with
      | some v => v
      | none => Json.obj [("raw", Json.str (jsTrim text))]
    | none => Json.obj [("raw", Json.str (jsTrim text))]

/-- `extractFields` (src/geminiService.js:78-87): the chat-model call is
an external oracle, so the function is modelled on the reply text it
produces; the code then returns `safeParseJson` of that reply. -/
def extractFields (modelReply : String) : Json :=
  safeParseJson modelReply

/-- A reply wrapped in a triple-backtick fence, optionally tagged `json` —
the output style the extraction prompt asks the model for. -/
def fenceWrap (tag : Bool) (j : String) : String :=
  "```" ++ (if tag then "json" else "") ++ "\n" ++ j ++ "\n```"

/-- One conversation turn, as stored in `req.session.history`:
`(q : question, a : answer, ts : Date.now())`. -/
structure Turn where
  q : String
  a : String
  ts : Nat

/-- `historyItems.slice(-12)`: the last (at most) `n` elements, in order. -/
def jsSliceLast (n : Nat) (l : List Turn) : List Turn :=
  l.drop (l.length - n)

/-- One numbered history block of the Q&A prompt
(`Turn N:\nQ: ...\nA: ...`, `idx` counted from 0 as in the source). -/
def turnLine (idx : Nat) (t : Turn) : String :=
  "Turn " ++ toString (idx + 1) ++ ":\nQ: " ++ t.q ++ "\nA: " ++ t.a

/-- `formatHistoryForPrompt` (src/geminiService.js:89-96): empty string on
an empty history, otherwise the last 12 turns formatted as numbered
blocks under a fixed header. -/
def formatHistoryForPrompt (historyItems : List Turn) : String :=
  if historyItems.length = 0 then ""
  else
    "Previous Q&A (most recent last):\n" ++
      String.intercalate "\n\n"
        ((jsSliceLast 12 historyItems).enum.map (fun p => turnLine p.1 p.2)) ++
      "\n\n"

/-- The single prompt built by `answerQuestion`
(src/geminiService.js:98-109) before the one model call. -/
def answerQuestionPrompt (documentText question : String) (history : List Turn) : String :=
  "You are a helpful loan document assistant. Use the document and the prior Q&A context to answer.\n\nDocument:\n"
    ++ documentText ++ "\n\n" ++ formatHistoryForPrompt history
    ++ "Question:\n" ++ question

/-- Which of the three extraction branches of `extractTextFromFile` runs. -/
inductive MediaRoute where
  | pdf
  | image
  | text
deriving DecidableEq

/-- `String.prototype.toLowerCase`, restricted to the ASCII case mapping
(sufficient for the `pdf` / `image/` probes the dispatch performs). -/
def jsToLower (s : String) : String :=
  String.mk (s.data.map Char.toLower)

/-- `String.prototype.includes`, on character lists. -/
def containsSub (pat : List Char) : List Char → Bool
  | [] => pat.isPrefixOf ([] : List Char)
  | c :: t => pat.isPrefixOf (c :: t) || containsSub pat t

/-- The media-type dispatch of `extractTextFromFile`
(src/geminiService.js:112,137,151): `(mimeType || "").toLowerCase()`,
then `includes("pdf")`, then `startsWith("image/")`, else plain text. -/
def routeOf (mimeType : Option String) : MediaRoute :=
  let lower := jsToLower (mimeType.getD "")
  if containsSub "pdf".data lower.data then MediaRoute.pdf
  else if "image/".data.isPrefixOf lower.data then MediaRoute.image
  else MediaRoute.text

/-- Oracles for the awaited calls made by `extractTextFromFile`.
`Except.error ()` models the call throwing / the promise rejecting.
`pdfParseText` is `data?.text` of a successful `pdf-parse` call (`none`
models a missing `text` field, turned into `""` by `|| ""`).  The two
vision fields bundle `getGenAi` + `generateContent`; their payload is the
reply text of `result.response` (`none` models nothing usable, turned
into `""`). -/
structure ExtractEnv where
  readPdfFile : Except Unit Unit
  pdfParseText : Except Unit (Option String)
  visionPdf : Except Unit (Option String)
  visionImage : Except Unit (Option String)
  utf8Read : Except Unit String

/-- `extractTextFromFile` (src/geminiService.js:111-158).  PDF route:
read the file (outside any try), attempt the native parse inside a
try/catch, return the trimmed parse text when non-empty and longer than
50 characters, otherwise fall through to the vision model; image route:
straight to the vision model; any other route: `fs.readFile(_, "utf8")`
inside a try/catch that degrades to `""`. -/
def extractTextFromFile (env : ExtractEnv) (mimeType : Option String) : Except Unit String :=
  match routeOf mimeType with
  | MediaRoute.pdf =>
    match env.readPdfFile with
    | Except.error _ => Except.error ()
    | Except.ok _ =>
      let native : Option String :=
        match env.pdfParseText with
        | Except.error _ => none
        | Except.ok dataText =>
          let parsedText := jsTrim (dataText.getD "")
          if parsedText ≠ "" ∧ parsedText.length > 50 then some parsedText else none
      match native with
      | some t => Except.ok t
      | none =>
        match env.visionPdf with
        | Except.error _ => Except.error ()
        | Except.ok reply => Except.ok (jsTrim (reply.getD ""))
  | MediaRoute.image =>
    match env.visionImage with
    | Except.error _ => Except.error ()
    | Except.ok reply => Except.ok (jsTrim (reply.getD ""))
  | MediaRoute.text =>
    match env.utf8Read with
    | Except.error _ => Except.ok ""
    | Except.ok text => Except.ok text

/-- The process-wide mutable state of the server:
`lastDocumentText` (UploadedDocument) and `lastExtracted`
(ExtractedFields, `null` before the first successful upload). -/
structure ServerState where
  lastDocumentText : String
  lastExtracted : Option Json

/-- An Express `res.status(n).json(body)` reply. -/
inductive ApiResponse where
  | json (status : Nat) (body : Json)

/-- Oracles for the two awaited pipeline stages of the upload handler. -/
structure UploadEffects where
  fileProvided : Bool
  textResult : Except Unit String
  fieldsResult : Except Unit Json

/-- The `POST /api/upload` handler (server file, lines 43-66), as a
transition on `(global state, session history)`.  Mirrors the source
statement order: 400 without a file; `extractTextFromFile` (a throw is
caught by the handler's catch-all and becomes a 500); 400 on empty or
whitespace-only text; then `lastDocumentText = text` is assigned BEFORE
`extractFields` is awaited, so a throwing extraction yields a 500 with
the document text already overwritten; on success `lastExtracted` is
assigned and the session history is reset. -/
def uploadHandler (st : ServerState) (hist : List Turn) (eff : UploadEffects) :
    ApiResponse × ServerState × List Turn :=
  if !eff.fileProvided then
    (ApiResponse.json 400 (Json.obj [("error", Json.str "No file uploaded")]), st, hist)
  else
    match eff.textResult with
    | Except.error _ =>
      (ApiResponse.json 500 (Json.obj [("error", Json.str "Failed to process upload")]), st, hist)
    | Except.ok text =>
      if jsTrim text = "" then
        (ApiResponse.json 400 (Json.obj [("error", Json.str "Uploaded file is empty or unreadable")]), st, hist)
      else
        let st1 : ServerState := { st with lastDocumentText := text }
        match eff.fieldsResult with
        | Except.error _ =>
          (ApiResponse.json 500 (Json.obj [("error", Json.str "Failed to process upload")]), st1, hist)
        | Except.ok extracted =>
          (ApiResponse.json 200 (Json.obj [("extracted", extracted)]),
           { st1 with lastExtracted := some extracted }, [])

/-- The `POST /api/ask` handler (server file, lines 68-90).  Returns the
response, the new session history, and whether `answerQuestion` (hence
the model) was invoked.  `question` is `req.body.question` (`none` models
a missing body or field, turned into `""` by `|| ""`); `answerResult` is
the oracle for the awaited `answerQuestion` call. -/
def askHandler (st : ServerState) (hist : List Turn) (question : Option String)
    (now : Nat) (answerResult : Except Unit String) :
    ApiResponse × List Turn × Bool :=
  let q := question.getD ""
  if jsTrim q = "" then
    (ApiResponse.json 400 (Json.obj [("error", Json.str "Missing question")]), hist, false)
  else if st.lastDocumentText = "" then
    (ApiResponse.json 400 (Json.obj [("error", Json.str "No document uploaded yet")]), hist, false)
  else
    match answerResult with
    | Except.error _ =>
      (ApiResponse.json 500 (Json.obj [("error", Json.str "Failed to answer question")]), hist, true)
    | Except.ok answer =>
      (ApiResponse.json 200 (Json.obj [("answer", Json.str answer)]),
       hist ++ [⟨q, answer, now⟩], true)

/-- The `POST /api/history/clear` handler (server file, lines 96-99):
`req.session.history = []`, then `res.json(ok : true)`. -/
def clearHistoryHandler (st : ServerState) (_hist : List Turn) :
    ApiResponse × ServerState × List Turn :=
  (ApiResponse.json 200 (Json.obj [("ok", Json.bool true)]), st, [])

theorem isPrefixOf_eq_true_iff :
    ∀ (p l : List Char), p.isPrefixOf l = true ↔ ∃ t, l = p ++ t := by
  intro p
  induction p with
  | nil => intro l; simp [List.isPrefixOf]
  | cons a as ih =>
    intro l
    cases l with
    | nil => simp [List.isPrefixOf]
    | cons b bs =>
      simp only [List.isPrefixOf, Bool.and_eq_true, beq_iff_eq, ih, List.cons_append]
      constructor
      · rintro ⟨rfl, t, rfl⟩; exact ⟨t, rfl⟩
      · rintro ⟨t, h⟩
        injection h with h1 h2
        exact ⟨h1.symm, t, h2⟩

theorem containsSub_eq_true_iff :
    ∀ (pat l : List Char), containsSub pat l = true ↔ ∃ x y, l = x ++ (pat ++ y) := by
  intro pat l
  induction l with
  | nil =>
    simp only [containsSub, isPrefixOf_eq_true_iff]
    constructor
    · rintro ⟨t, h⟩; exact ⟨[], t, by simpa using h⟩
    · rintro ⟨x, y, h⟩
      rcases List.append_eq_nil.mp h.symm with ⟨hx, hpy⟩
      exact ⟨y, hpy.symm⟩
  | cons c t ih =>
    simp only [containsSub, Bool.or_eq_true, isPrefixOf_eq_true_iff, ih]
    constructor
    · rintro (⟨r, hr⟩ | ⟨x, y, hxy⟩)
      · exact ⟨[], r, by simpa using hr⟩
      · exact ⟨c :: x, y, by simp [hxy]⟩
    · rintro ⟨x, y, hxy⟩
      cases x with
      | nil => exact Or.inl ⟨y, by simpa using hxy⟩
      | cons a x' =>
        injection hxy with h1 h2
        exact Or.inr ⟨x', y, h2⟩

/-- C1: the spec requires the overwrite of document text, extracted fields
and history reset to be atomic per upload, with no partial state visible
after a 500.  The code violates this: `lastDocumentText` is assigned
before `extractFields` is awaited, so when field extraction throws (here:
the oracle returns `Except.error ()`), the handler answers 500 while the
globally visible document text has already been replaced, with the old
extracted fields still in place. -/
theorem uploadHandler_partial_overwrite :
    uploadHandler ⟨"old document", some (Json.str "old fields")⟩ [⟨"q0", "a0", 0⟩]
      ⟨true, Except.ok "new document text", Except.error ()⟩ =
      (ApiResponse.json 500 (Json.obj [("error", Json.str "Failed to process upload")]),
       ⟨"new document text", some (Json.str "old fields")⟩, [⟨"q0", "a0", 0⟩]) := rfl

/-- C2 counterexample: the model reply `"null"` is valid JSON, so
`JSON.parse` succeeds and `safeParseJson` returns JavaScript `null` —
refuting "the result is never null". -/
theorem safeParseJson_null_counterexample : safeParseJson "null" = Json.null := rfl

/-- C2 (amended): for every reply string, `safeParseJson` never throws and
returns either the directly-parsed JSON, the parsed contents of the first
triple-backtick fenced block, or the fallback object `(raw : trimmed
reply)`; the result is null only when the direct (or fenced) parse itself
yields JSON `null` — in particular the raw fallback is never null. -/
theorem safeParseJson_shape :
    ∀ s : String,
      ((∃ v, parseJson s = some v ∧ safeParseJson s = v) ∨
       (∃ cap v, parseJson s = none ∧ extractFence s.data = some cap ∧
          parseJson (String.mk cap) = some v ∧ safeParseJson s = v) ∨
       safeParseJson s = Json.obj [("raw", Json.str (jsTrim s))]) ∧
      (safeParseJson s = Json.null →
        parseJson s = some Json.null ∨
        (∃ cap, parseJson s = none ∧ extractFence s.data = some cap ∧
           parseJson (String.mk cap) = some Json.null)) := by
  intro s
  rcases hp : parseJson s with _ | v
  · rcases hf : extractFence s.data with _ | cap
    · have hval : safeParseJson s = Json.obj [("raw", Json.str (jsTrim s))] := by
        simp [safeParseJson, hp, hf]
      exact ⟨Or.inr (Or.inr hval),
        fun h => absurd (hval.symm.trans h) (fun hh => Json.noConfusion hh)⟩
    · rcases hq : parseJson (String.mk cap) with _ | v
      · have hval : safeParseJson s = Json.obj [("raw", Json.str (jsTrim s))] := by
          simp [safeParseJson, hp, hf, hq]
        exact ⟨Or.inr (Or.inr hval),
          fun h => absurd (hval.symm.trans h) (fun hh => Json.noConfusion hh)⟩
      · have hval : safeParseJson s = v := by simp [safeParseJson, hp, hf, hq]
        refine ⟨Or.inr (Or.inl ⟨cap, v, rfl, rfl, hq, hval⟩), fun h => Or.inr ?_⟩
        exact ⟨cap, rfl, rfl, (hval.symm.trans h) ▸ hq⟩
  · have hval : safeParseJson s = v := by simp [safeParseJson, hp]
    exact ⟨Or.inl ⟨v, rfl, hval⟩, fun h => Or.inl ((hval.symm.trans h) ▸ rfl)⟩

/-- C2 witness: the amended theorem applied at the concrete reply
`"null"`, whose `safeParseJson` value is JSON `null` (by evaluation). -/
theorem safeParseJson_shape_witness :
    parseJson "null" = some Json.null ∨
    (∃ cap, parseJson "null" = none ∧ extractFence "null".data = some cap ∧
       parseJson (String.mk cap) = some Json.null) :=
  (safeParseJson_shape "null").2 rfl

/-- C3: the Q&A prompt construction windows the history with
`slice(-12)`: the window is a suffix of the history of length at most 12
(hence chronological order is preserved); with exactly 20 prior turns it
is turns 9 through 20 (`drop 8`); and `formatHistoryForPrompt` renders
exactly that window as numbered blocks. -/
theorem formatHistoryForPrompt_window :
    ∀ l : List Turn,
      (jsSliceLast 12 l).length ≤ 12 ∧
      jsSliceLast 12 l <:+ l ∧
      (l.length = 20 → jsSliceLast 12 l = l.drop 8) ∧
      formatHistoryForPrompt l =
        (if l.length = 0 then ""
         else
           "Previous Q&A (most recent last):\n" ++
             String.intercalate "\n\n"
               ((jsSliceLast 12 l).enum.map (fun p => turnLine p.1 p.2)) ++
             "\n\n") := by
  intro l
  refine ⟨?_, ?_, ?_, rfl⟩
  · simp only [jsSliceLast, List.length_drop]
    omega
  · exact List.drop_suffix _ _
  · intro h
    simp [jsSliceLast, h]

/-- C3 witness: a concrete 20-turn history for which the window is
exactly `drop 8`, i.e. turns 9 through 20. -/
theorem formatHistoryForPrompt_window_witness :
    ((List.range 20).map (fun i => Turn.mk (toString i) "" 0)).length = 20 ∧
    jsSliceLast 12 ((List.range 20).map (fun i => Turn.mk (toString i) "" 0)) =
      ((List.range 20).map (fun i => Turn.mk (toString i) "" 0)).drop 8 :=
  ⟨by simp, (formatHistoryForPrompt_window _).2.2.1 (by simp)⟩

/-- C5: on the PDF route (with the initial file read succeeding), the
handler returns the trimmed native parse text exactly when it is longer
than 50 characters (non-emptiness is then automatic); on a short trimmed
parse, or on a throwing native parse, it falls through to the vision
model and returns that reply trimmed — the empty string when the model
returns nothing usable. -/
theorem extractTextFromFile_pdf_threshold :
    ∀ (env : ExtractEnv) (mimeType : Option String),
      routeOf mimeType = MediaRoute.pdf →
      env.readPdfFile = Except.ok () →
      ((∀ dataText, env.pdfParseText = Except.ok dataText →
          (((jsTrim (dataText.getD "")).length > 50 →
              extractTextFromFile env mimeType = Except.ok (jsTrim (dataText.getD ""))) ∧
           ((jsTrim (dataText.getD "")).length ≤ 50 →
              ∀ reply, env.visionPdf = Except.ok reply →
                extractTextFromFile env mimeType = Except.ok (jsTrim (reply.getD ""))))) ∧
       (env.pdfParseText = Except.error () →
          ∀ reply, env.visionPdf = Except.ok reply →
            extractTextFromFile env mimeType = Except.ok (jsTrim (reply.getD "")))) := by
  intro env mimeType hroute hread
  constructor
  · intro dataText hp
    constructor
    · intro hlen
      have hne : jsTrim (dataText.getD "") ≠ "" := by
        intro hh
        rw [hh] at hlen
        simp at hlen
      simp [extractTextFromFile, hroute, hread, hp, hne, hlen]
    · intro hlen reply hv
      have hcond : ¬(jsTrim (dataText.getD "") ≠ "" ∧ (jsTrim (dataText.getD "")).length > 50) := by
        rintro ⟨-, hgt⟩
        omega
      simp [extractTextFromFile, hroute, hread, hp, hv, hcond]
  · intro hp reply hv
    simp [extractTextFromFile, hroute, hread, hp, hv]

/-- C5 witness: a PDF whose native parse yields 60 non-whitespace
characters is returned directly (trimmed), without the vision fallback. -/
theorem extractTextFromFile_pdf_threshold_witness :
    extractTextFromFile
      ⟨Except.ok (), Except.ok (some (String.mk (List.replicate 60 'a'))),
       Except.ok none, Except.ok none, Except.ok ""⟩
      (some "application/pdf") =
      Except.ok (jsTrim (String.mk (List.replicate 60 'a'))) :=
  ((extractTextFromFile_pdf_threshold _ _ (by decide) rfl).1
      (some (String.mk (List.replicate 60 'a'))) rfl).1 (by decide)

/-- C6: every media type that routes to neither the PDF nor the image
branch (including a missing media type) takes the UTF-8 text path, which
never throws: it returns the decoded text, and the empty string when the
read fails. -/
theorem extractTextFromFile_text_route :
    routeOf none = MediaRoute.text ∧
    ∀ (env : ExtractEnv) (mimeType : Option String),
      routeOf mimeType = MediaRoute.text →
      ((∀ t, env.utf8Read = Except.ok t → extractTextFromFile env mimeType = Except.ok t) ∧
       (env.utf8Read = Except.error () → extractTextFromFile env mimeType = Except.ok "") ∧
       ∃ s, extractTextFromFile env mimeType = Except.ok s) := by
  refine ⟨by decide, ?_⟩
  intro env mimeType hroute
  refine ⟨?_, ?_, ?_⟩
  · intro t ht
    simp [extractTextFromFile, hroute, ht]
  · intro he
    simp [extractTextFromFile, hroute, he]
  · rcases hu : env.utf8Read with _ | t
    · exact ⟨"", by simp [extractTextFromFile, hroute, hu]⟩
    · exact ⟨t, by simp [extractTextFromFile, hroute, hu]⟩

/-- C6 witness: a plain-text upload with no declared media type returns
the decoded file contents; with a failing read it returns `""`. -/
theorem extractTextFromFile_text_route_witness :
    extractTextFromFile
      ⟨Except.ok (), Except.error (), Except.ok none, Except.ok none,
       Except.ok "Name: Jane Doe, Loan: 5000"⟩ none =
      Except.ok "Name: Jane Doe, Loan: 5000" :=
  ((extractTextFromFile_text_route.2 _ none extractTextFromFile_text_route.1).1
    "Name: Jane Doe, Loan: 5000" rfl)

/-- C7: `POST /api/ask` returns a 400 error, never invokes the model, and
leaves the session history unchanged, whenever the question is empty (or
missing) or no document has been uploaded yet (`lastDocumentText` still
its initial empty value). -/
theorem askHandler_preconditions :
    ∀ (st : ServerState) (hist : List Turn) (question : Option String) (now : Nat)
      (answerResult : Except Unit String),
      (jsTrim (question.getD "") = "" ∨ st.lastDocumentText = "") →
      ∃ msg, askHandler st hist question now answerResult =
        (ApiResponse.json 400 (Json.obj [("error", Json.str msg)]), hist, false) := by
  intro st hist question now answerResult h
  by_cases hq : jsTrim (question.getD "") = ""
  · exact ⟨"Missing question", by simp [askHandler, hq]⟩
  · rcases h with h | h
    · exact absurd h hq
    · exact ⟨"No document uploaded yet", by simp [askHandler, hq, h]⟩

/-- C7 witness: before any upload (empty initial state), asking a
well-formed question yields a 400, no model call, unchanged history. -/
theorem askHandler_preconditions_witness :
    ∃ msg, askHandler ⟨"", none⟩ [] (some "What is the loan amount?") 0 (Except.ok "ans") =
      (ApiResponse.json 400 (Json.obj [("error", Json.str msg)]), [], false) :=
  askHandler_preconditions ⟨"", none⟩ [] (some "What is the loan amount?") 0
    (Except.ok "ans") (Or.inr rfl)

/-- C8: `POST /api/history/clear` empties the requesting session's
history and changes nothing else: document text and extracted fields are
untouched, for every prior state. -/
theorem clearHistoryHandler_frame :
    ∀ (st : ServerState) (hist : List Turn),
      (clearHistoryHandler st hist).2.1.lastDocumentText = st.lastDocumentText ∧
      (clearHistoryHandler st hist).2.1.lastExtracted = st.lastExtracted ∧
      (clearHistoryHandler st hist).2.2 = [] ∧
      (clearHistoryHandler st hist).1 = ApiResponse.json 200 (Json.obj [("ok", Json.bool true)]) :=
  fun _ _ => ⟨rfl, rfl, rfl, rfl⟩

/-- C9: the ask handler trims the question before testing it, so any
whitespace-only question gets the same 400 "Missing question" reply as a
missing one, without reaching the model and without touching history. -/
theorem askHandler_whitespace_question :
    ∀ (st : ServerState) (hist : List Turn) (q : String) (now : Nat)
      (answerResult : Except Unit String),
      jsTrim q = "" →
      askHandler st hist (some q) now answerResult =
        (ApiResponse.json 400 (Json.obj [("error", Json.str "Missing question")]), hist, false) := by
  intro st hist q now answerResult h
  simp [askHandler, h]

/-- C9 witness: a question of spaces, a newline and a tab is rejected
with 400 "Missing question" even though a document is present. -/
theorem askHandler_whitespace_question_witness :
    askHandler ⟨"some document", some Json.null⟩ [] (some "  \n\t ") 0 (Except.ok "ans") =
      (ApiResponse.json 400 (Json.obj [("error", Json.str "Missing question")]), [], false) :=
  askHandler_whitespace_question ⟨"some document", some Json.null⟩ [] "  \n\t " 0
    (Except.ok "ans") (by decide)

/-- C10: the media-type dispatch is by case-insensitive substring match:
any declared type whose lowercase form contains `pdf` anywhere routes to
the PDF branch; otherwise a lowercase `image/` prefix routes to the image
branch; everything else — including a missing media type — routes to the
UTF-8 text branch.  Concrete instances witness the case-insensitive,
non-exact matching. -/
theorem routeOf_dispatch :
    ∀ mimeType : Option String,
      (routeOf mimeType = MediaRoute.pdf ↔
        ∃ x y, (jsToLower (mimeType.getD "")).data = x ++ ("pdf".data ++ y)) ∧
      (routeOf mimeType = MediaRoute.image ↔
        ¬(∃ x y, (jsToLower (mimeType.getD "")).data = x ++ ("pdf".data ++ y)) ∧
        ∃ t, (jsToLower (mimeType.getD "")).data = "image/".data ++ t) ∧
      (routeOf mimeType = MediaRoute.text ↔
        ¬(∃ x y, (jsToLower (mimeType.getD "")).data = x ++ ("pdf".data ++ y)) ∧
        ¬∃ t, (jsToLower (mimeType.getD "")).data = "image/".data ++ t) ∧
      routeOf none = MediaRoute.text ∧
      routeOf (some "Application/PDF") = MediaRoute.pdf ∧
      routeOf (some "application/x-ePdF-stream") = MediaRoute.pdf ∧
      routeOf (some "IMAGE/png") = MediaRoute.image ∧
      routeOf (some "text/plain") = MediaRoute.text := by
  intro mimeType
  refine ⟨?_, ?_, ?_, by decide, by decide, by decide, by decide, by decide⟩
  · rw [← containsSub_eq_true_iff]
    cases h1 : containsSub "pdf".data (jsToLower (mimeType.getD "")).data <;>
      cases h2 : List.isPrefixOf "image/".data (jsToLower (mimeType.getD "")).data <;>
        simp [routeOf, h1, h2]
  · rw [← containsSub_eq_true_iff, ← isPrefixOf_eq_true_iff]
    cases h1 : containsSub "pdf".data (jsToLower (mimeType.getD "")).data <;>
      cases h2 : List.isPrefixOf "image/".data (jsToLower (mimeType.getD "")).data <;>
        simp [routeOf, h1, h2]
  · rw [← containsSub_eq_true_iff, ← isPrefixOf_eq_true_iff]
    cases h1 : containsSub "pdf".data (jsToLower (mimeType.getD "")).data <;>
      cases h2 : List.isPrefixOf "image/".data (jsToLower (mimeType.getD "")).data <;>
        simp [routeOf, h1, h2]

theorem jsonWs_imp_jsWs {c : Char} (h : isJsonWs c = true) : isJsWs c = true := by
  simp only [isJsonWs, Bool.or_eq_true, decide_eq_true_eq] at h
  simp only [isJsWs, Bool.or_eq_true, decide_eq_true_eq, Bool.and_eq_true]
  omega

theorem not_jsWs_not_jsonWs {c : Char} (h : isJsWs c = false) : isJsonWs c = false := by
  cases hj : isJsonWs c
  · rfl
  · rw [jsonWs_imp_jsWs hj] at h
    exact Bool.noConfusion h

theorem isDigit_not_jsWs {c : Char} (h : isDigit c = true) : isJsWs c = false := by
  cases hb : isJsWs c
  · rfl
  · exfalso
    simp only [isDigit, Bool.and_eq_true, decide_eq_true_eq] at h
    simp only [isJsWs, Bool.or_eq_true, decide_eq_true_eq, Bool.and_eq_true] at hb
    omega

theorem dropWhile_cons_of_neg {p : Char → Bool} {a : Char} {l : List Char} (h : p a = false) :
    List.dropWhile p (a :: l) = a :: l := by
  simp [List.dropWhile_cons, h]

theorem dropWhile_append_of_all {p : Char → Bool} :
    ∀ (w l : List Char), (∀ c ∈ w, p c = true) →
      List.dropWhile p (w ++ l) = List.dropWhile p l := by
  intro w
  induction w with
  | nil => intro l _; rfl
  | cons a w' ih =>
    intro l hall
    rw [List.cons_append, List.dropWhile_cons, if_pos (hall a (by simp))]
    exact ih l (fun c hc => hall c (by simp [hc]))

theorem length_dropWhile_le' {p : Char → Bool} (l : List Char) :
    (l.dropWhile p).length ≤ l.length :=
  (List.dropWhile_suffix p).length_le

theorem hasTripleB_cons (a : Char) (t : List Char) :
    hasTripleB (a :: t) = (beginsTriple (a :: t) || hasTripleB t) := rfl

theorem findTriple_cons (a : Char) (t : List Char) :
    findTriple (a :: t) =
      (if beginsTriple (a :: t) then some 0 else Option.map Nat.succ (findTriple t)) := rfl

theorem hasTripleB_append_right :
    ∀ (z x : List Char), hasTripleB (z ++ x) = false → hasTripleB x = false := by
  intro z
  induction z with
  | nil => intro x h; exact h
  | cons a z' ih =>
    intro x h
    rw [List.cons_append, hasTripleB_cons, Bool.or_eq_false_iff] at h
    exact ih x h.2

theorem hasTripleB_append_nonbt :
    ∀ (x : List Char) (c : Char), hasTripleB x = false → isBacktick c = false →
      hasTripleB (x ++ [c]) = false := by
  intro x
  induction x with
  | nil => intro c _ hc; simp [hasTripleB, beginsTriple, hc]
  | cons a x' ih =>
    intro c hx hc
    rw [hasTripleB_cons, Bool.or_eq_false_iff] at hx
    obtain ⟨hb, ht⟩ := hx
    rw [List.cons_append, hasTripleB_cons, Bool.or_eq_false_iff]
    refine ⟨?_, ih c ht hc⟩
    cases x' with
    | nil => simp [beginsTriple, hc]
    | cons b x'' =>
      cases x'' with
      | nil => simp [beginsTriple, hc]
      | cons b2 t' =>
        simp only [beginsTriple, List.cons_append] at hb ⊢
        exact hb

theorem beginsTriple_bt3 (rest : List Char) :
    beginsTriple (Char.ofNat 96 :: Char.ofNat 96 :: Char.ofNat 96 :: rest) = true := by
  have hb : isBacktick (Char.ofNat 96) = true := by decide
  simp [beginsTriple, hb]

theorem findTriple_append_triple :
    ∀ (y rest : List Char),
      hasTripleB y = false →
      (∀ c, y.getLast? = some c → isBacktick c = false) →
      findTriple (y ++ Char.ofNat 96 :: Char.ofNat 96 :: Char.ofNat 96 :: rest) =
        some y.length := by
  intro y
  induction y with
  | nil =>
    intro rest _ _
    rw [List.nil_append, findTriple_cons, if_pos ((beginsTriple_bt3 rest))]
    rfl
  | cons a y' ih =>
    intro rest hx hlast
    rw [hasTripleB_cons, Bool.or_eq_false_iff] at hx
    obtain ⟨hb, ht⟩ := hx
    rw [List.cons_append, findTriple_cons]
    have hbeg :
        beginsTriple (a :: (y' ++ Char.ofNat 96 :: Char.ofNat 96 :: Char.ofNat 96 :: rest)) = false := by
      cases y' with
      | nil =>
        have ha : isBacktick a = false := hlast a rfl
        simp [beginsTriple, ha]
      | cons b y'' =>
        cases y'' with
        | nil =>
          have hbb : isBacktick b = false := hlast b rfl
          simp [beginsTriple, hbb]
        | cons b2 t' =>
          simp only [beginsTriple, List.cons_append] at hb ⊢
          exact hb
    rw [if_neg (by simp [hbeg])]
    cases y' with
    | nil =>
      rw [List.nil_append, findTriple_cons, if_pos ((beginsTriple_bt3 rest))]
      rfl
    | cons b y'' =>
      have hlast' : ∀ c, (b :: y'').getLast? = some c → isBacktick c = false := by
        intro c hc
        exact hlast c (by rw [List.getLast?_cons_cons]; exact hc)
      rw [ih rest ht hlast']
      rfl

theorem stripTrailingWs_append_ws {x : List Char} {c : Char} (h : isJsWs c = true) :
    stripTrailingWs (x ++ [c]) = stripTrailingWs x := by
  simp [stripTrailingWs, List.reverse_append, List.dropWhile_cons, h]

theorem stripTrailingWs_length_le (x : List Char) :
    (stripTrailingWs x).length ≤ x.length := by
  calc (stripTrailingWs x).length = (x.reverse.dropWhile isJsWs).length := by
        simp [stripTrailingWs]
    _ ≤ x.reverse.length := length_dropWhile_le' x.reverse
    _ = x.length := by simp

theorem exists_concat_of_getLast? :
    ∀ (x : List Char) (c : Char), x.getLast? = some c → ∃ y, x = y ++ [c] := by
  intro x
  induction x with
  | nil => intro c h; exact absurd h (by simp)
  | cons a x' ih =>
    intro c h
    cases x' with
    | nil =>
      have : a = c := by simpa using h
      exact ⟨[], by simp [this]⟩
    | cons b x'' =>
      rw [List.getLast?_cons_cons] at h
      obtain ⟨y, hy⟩ := ih c h
      exact ⟨a :: y, by simp [hy]⟩

theorem stripTrailingWs_last_not_ws :
    ∀ (x : List Char), stripTrailingWs x = x → ∀ c, x.getLast? = some c → isJsWs c = false := by
  intro x hx c hc
  by_contra hws
  rw [Bool.not_eq_false] at hws
  obtain ⟨y, rfl⟩ := exists_concat_of_getLast? x c hc
  have h1 : stripTrailingWs (y ++ [c]) = stripTrailingWs y := stripTrailingWs_append_ws hws
  rw [hx] at h1
  have h2 := stripTrailingWs_length_le y
  rw [← h1] at h2
  simp at h2

theorem stripTrailingWs_eq_self_of_last :
    ∀ (x : List Char), (∀ c, x.getLast? = some c → isJsWs c = false) →
      stripTrailingWs x = x := by
  intro x h
  rcases List.eq_nil_or_concat x with rfl | ⟨y, c, rfl⟩
  · rfl
  · rw [List.concat_eq_append] at *
    have hc : isJsWs c = false := h c (by simp [List.getLast?_concat])
    simp [stripTrailingWs, List.reverse_append, List.dropWhile_cons, hc]

theorem parseCore_value_head :
    ∀ (fuel : Nat) (l : List Char) (res : Json × List Char),
      parseCore fuel PMode.value l = some res →
      ∃ c t, l = c :: t ∧ isJsWs c = false := by
  intro fuel l res h
  cases fuel with
  | zero => exact absurd h (by simp [parseCore])
  | succ f =>
    cases l with
    | nil => exact absurd h (by simp [parseCore])
    | cons c t =>
      refine ⟨c, t, rfl, ?_⟩
      by_contra hws
      rw [Bool.not_eq_false] at hws
      have h1 : ¬(c = lbrace) := fun e => absurd (e ▸ hws) (by decide)
      have h2 : ¬(c = '[') := fun e => absurd (e ▸ hws) (by decide)
      have h3 : ¬(c = '"') := fun e => absurd (e ▸ hws) (by decide)
      have h4 : ¬(c = 't') := fun e => absurd (e ▸ hws) (by decide)
      have h5 : ¬(c = 'f') := fun e => absurd (e ▸ hws) (by decide)
      have h6 : ¬(c = 'n') := fun e => absurd (e ▸ hws) (by decide)
      have h7 : ¬(c = '-') := fun e => absurd (e ▸ hws) (by decide)
      have h8 : isDigit c = false := by
        cases hd : isDigit c
        · rfl
        · exact absurd (isDigit_not_jsWs hd) (by simp [hws])
      simp [parseCore, h1, h2, h3, h4, h5, h6, h7, h8] at h

theorem parseCore_backtick :
    ∀ (fuel : Nat) (t : List Char),
      parseCore fuel PMode.value (Char.ofNat 96 :: t) = none := by
  intro fuel t
  cases fuel with
  | zero => rfl
  | succ f =>
    have h1 : ¬(Char.ofNat 96 = lbrace) := by decide
    have h2 : ¬(Char.ofNat 96 = '[') := by decide
    have h3 : ¬(Char.ofNat 96 = '"') := by decide
    have h4 : ¬(Char.ofNat 96 = 't') := by decide
    have h5 : ¬(Char.ofNat 96 = 'f') := by decide
    have h6 : ¬(Char.ofNat 96 = 'n') := by decide
    have h7 : ¬(Char.ofNat 96 = '-') := by decide
    have h8 : isDigit (Char.ofNat 96) = false := by decide
    simp [parseCore, h1, h2, h3, h4, h5, h6, h7, h8]

theorem parseJson_backtick_head :
    ∀ (s : String) (t : List Char), s.data = Char.ofNat 96 :: t → parseJson s = none := by
  intro s t h
  have hskip : skipWs s.data = Char.ofNat 96 :: t := by
    rw [h]
    exact dropWhile_cons_of_neg (by decide)
  simp [parseJson, hskip, parseCore_backtick]

theorem getLast?_cons_of_ne_nil {a : Char} {l : List Char} (h : l ≠ []) :
    (a :: l).getLast? = l.getLast? := by
  cases l with
  | nil => exact absurd rfl h
  | cons b t => exact List.getLast?_cons_cons

theorem parseStringBody_spec :
    ∀ (n : Nat) (l : List Char), l.length ≤ n →
      ∀ (acc : List Char) (s : String) (r : List Char),
        parseStringBody acc l = some (s, r) →
        ∃ b, l = b ++ r ∧ b.getLast? = some '"' ∧
          ∀ r2, parseStringBody acc (b ++ r2) = some (s, r2) := by
  intro n
  induction n with
  | zero =>
    intro l hl acc s r h
    rw [List.length_eq_zero.mp (Nat.le_zero.mp hl)] at h
    rw [parseStringBody.eq_def] at h
    exact absurd h (by simp)
  | succ n ih =>
    intro l hl acc s r h
    cases l with
    | nil =>
      rw [parseStringBody.eq_def] at h
      exact absurd h (by simp)
    | cons c t =>
      rw [parseStringBody.eq_def] at h
      simp only [] at h
      by_cases hq : c = '"'
      · subst hq
        rw [if_pos rfl] at h
        obtain ⟨hs, hr⟩ : s = String.mk acc.reverse ∧ t = r := by
          simp at h
          exact ⟨h.1.symm, h.2⟩
        subst hs; subst hr
        refine ⟨['"'], rfl, by simp, fun r2 => ?_⟩
        rw [parseStringBody.eq_def]
        simp
      · rw [if_neg hq] at h
        by_cases hbs : c = '\\'
        · subst hbs
          rw [if_pos rfl] at h
          cases t with
          | nil => exact absurd h (by simp)
          | cons e t2 =>
            simp only [] at h
            have hlen2 : t2.length ≤ n := by simp at hl; omega
            by_cases he1 : e = '"'
            · subst he1
              rw [if_pos rfl] at h
              obtain ⟨b2, hb2, hl2, hrep2⟩ := ih t2 hlen2 ('"' :: acc) s r h
              have hb2ne : b2 ≠ [] := by intro hnil; rw [hnil] at hl2; simp at hl2
              refine ⟨'\\' :: '"' :: b2, by simp [hb2], ?_, fun r2 => ?_⟩
              · rw [getLast?_cons_of_ne_nil (by simp), getLast?_cons_of_ne_nil hb2ne]
                exact hl2
              · rw [List.cons_append, List.cons_append, parseStringBody.eq_def]
                simp only []
                simpa using hrep2 r2
            · rw [if_neg he1] at h
              by_cases he2 : e = '\\'
              · subst he2
                rw [if_pos rfl] at h
                obtain ⟨b2, hb2, hl2, hrep2⟩ := ih t2 hlen2 ('\\' :: acc) s r h
                have hb2ne : b2 ≠ [] := by intro hnil; rw [hnil] at hl2; simp at hl2
                refine ⟨'\\' :: '\\' :: b2, by simp [hb2], ?_, fun r2 => ?_⟩
                · rw [getLast?_cons_of_ne_nil (by simp), getLast?_cons_of_ne_nil hb2ne]
                  exact hl2
                · rw [List.cons_append, List.cons_append, parseStringBody.eq_def]
                  simp only []
                  simpa using hrep2 r2
              · rw [if_neg he2] at h
                by_cases he3 : e = '/'
                · subst he3
                  rw [if_pos rfl] at h
                  obtain ⟨b2, hb2, hl2, hrep2⟩ := ih t2 hlen2 ('/' :: acc) s r h
                  have hb2ne : b2 ≠ [] := by intro hnil; rw [hnil] at hl2; simp at hl2
                  refine ⟨'\\' :: '/' :: b2, by simp [hb2], ?_, fun r2 => ?_⟩
                  · rw [getLast?_cons_of_ne_nil (by simp), getLast?_cons_of_ne_nil hb2ne]
                    exact hl2
                  · rw [List.cons_append, List.cons_append, parseStringBody.eq_def]
                    simp only []
                    simpa using hrep2 r2
                · rw [if_neg he3] at h
                  by_cases he4 : e = 'b'
                  · subst he4
                    rw [if_pos rfl] at h
                    obtain ⟨b2, hb2, hl2, hrep2⟩ := ih t2 hlen2 (Char.ofNat 8 :: acc) s r h
                    have hb2ne : b2 ≠ [] := by intro hnil; rw [hnil] at hl2; simp at hl2
                    refine ⟨'\\' :: 'b' :: b2, by simp [hb2], ?_, fun r2 => ?_⟩
                    · rw [getLast?_cons_of_ne_nil (by simp), getLast?_cons_of_ne_nil hb2ne]
                      exact hl2
                    · rw [List.cons_append, List.cons_append, parseStringBody.eq_def]
                      simp only []
                      simpa using hrep2 r2
                  · rw [if_neg he4] at h
                    by_cases he5 : e = 'f'
                    · subst he5
                      rw [if_pos rfl] at h
                      obtain ⟨b2, hb2, hl2, hrep2⟩ := ih t2 hlen2 (Char.ofNat 12 :: acc) s r h
                      have hb2ne : b2 ≠ [] := by intro hnil; rw [hnil] at hl2; simp at hl2
                      refine ⟨'\\' :: 'f' :: b2, by simp [hb2], ?_, fun r2 => ?_⟩
                      · rw [getLast?_cons_of_ne_nil (by simp), getLast?_cons_of_ne_nil hb2ne]
                        exact hl2
                      · rw [List.cons_append, List.cons_append, parseStringBody.eq_def]
                        simp only []
                        simpa using hrep2 r2
                    · rw [if_neg he5] at h
                      by_cases he6 : e = 'n'
                      · subst he6
                        rw [if_pos rfl] at h
                        obtain ⟨b2, hb2, hl2, hrep2⟩ := ih t2 hlen2 (Char.ofNat 10 :: acc) s r h
                        have hb2ne : b2 ≠ [] := by intro hnil; rw [hnil] at hl2; simp at hl2
                        refine ⟨'\\' :: 'n' :: b2, by simp [hb2], ?_, fun r2 => ?_⟩
                        · rw [getLast?_cons_of_ne_nil (by simp), getLast?_cons_of_ne_nil hb2ne]
                          exact hl2
                        · rw [List.cons_append, List.cons_append, parseStringBody.eq_def]
                          simp only []
                          simpa using hrep2 r2
                      · rw [if_neg he6] at h
                        by_cases he7 : e = 'r'
                        · subst he7
                          rw [if_pos rfl] at h
                          obtain ⟨b2, hb2, hl2, hrep2⟩ := ih t2 hlen2 (Char.ofNat 13 :: acc) s r h
                          have hb2ne : b2 ≠ [] := by intro hnil; rw [hnil] at hl2; simp at hl2
                          refine ⟨'\\' :: 'r' :: b2, by simp [hb2], ?_, fun r2 => ?_⟩
                          · rw [getLast?_cons_of_ne_nil (by simp), getLast?_cons_of_ne_nil hb2ne]
                            exact hl2
                          · rw [List.cons_append, List.cons_append, parseStringBody.eq_def]
                            simp only []
                            simpa using hrep2 r2
                        · rw [if_neg he7] at h
                          by_cases he8 : e = 't'
                          · subst he8
                            rw [if_pos rfl] at h
                            obtain ⟨b2, hb2, hl2, hrep2⟩ := ih t2 hlen2 (Char.ofNat 9 :: acc) s r h
                            have hb2ne : b2 ≠ [] := by intro hnil; rw [hnil] at hl2; simp at hl2
                            refine ⟨'\\' :: 't' :: b2, by simp [hb2], ?_, fun r2 => ?_⟩
                            · rw [getLast?_cons_of_ne_nil (by simp), getLast?_cons_of_ne_nil hb2ne]
                              exact hl2
                            · rw [List.cons_append, List.cons_append, parseStringBody.eq_def]
                              simp only []
                              simpa using hrep2 r2
                          · rw [if_neg he8] at h
                            by_cases he9 : e = 'u'
                            · subst he9
                              rw [if_pos rfl] at h
                              cases t2 with
                              | nil => simp at h
                              | cons h1 t3 =>
                                cases t3 with
                                | nil => simp at h
                                | cons h2 t4 =>
                                  cases t4 with
                                  | nil => simp at h
                                  | cons h3 t5 =>
                                    cases t5 with
                                    | nil => simp at h
                                    | cons h4 t6 =>
                                      simp only [] at h
                                      rcases hx1 : hexVal h1 with _ | a
                                      · rw [hx1] at h; simp at h
                                      rcases hx2 : hexVal h2 with _ | b
                                      · rw [hx1, hx2] at h; simp at h
                                      rcases hx3 : hexVal h3 with _ | c2
                                      · rw [hx1, hx2, hx3] at h; simp at h
                                      rcases hx4 : hexVal h4 with _ | d2
                                      · rw [hx1, hx2, hx3, hx4] at h; simp at h
                                      rw [hx1, hx2, hx3, hx4] at h
                                      simp only [] at h
                                      have hlen6 : t6.length ≤ n := by simp at hl; omega
                                      obtain ⟨b2, hb2, hl2, hrep2⟩ :=
                                        ih t6 hlen6
                                          (Char.ofNat (((a * 16 + b) * 16 + c2) * 16 + d2) :: acc) s r h
                                      have hb2ne : b2 ≠ [] := by
                                        intro hnil; rw [hnil] at hl2; simp at hl2
                                      refine ⟨'\\' :: 'u' :: h1 :: h2 :: h3 :: h4 :: b2,
                                        by simp [hb2], ?_, fun r2 => ?_⟩
                                      · rw [getLast?_cons_of_ne_nil (by simp),
                                          getLast?_cons_of_ne_nil (by simp),
                                          getLast?_cons_of_ne_nil (by simp),
                                          getLast?_cons_of_ne_nil (by simp),
                                          getLast?_cons_of_ne_nil (by simp),
                                          getLast?_cons_of_ne_nil hb2ne]
                                        exact hl2
                                      · rw [List.cons_append, List.cons_append, List.cons_append,
                                          List.cons_append, List.cons_append, List.cons_append,
                                          parseStringBody.eq_def]
                                        simp only []
                                        simpa [hx1, hx2, hx3, hx4] using hrep2 r2
                            · rw [if_neg he9] at h
                              simp at h
        · rw [if_neg hbs] at h
          by_cases hctl : c.toNat < 32
          · rw [if_pos hctl] at h
            exact absurd h (by simp)
          · rw [if_neg hctl] at h
            obtain ⟨b2, hb2, hl2, hrep2⟩ :=
              ih t (by simp at hl; omega) (c :: acc) s r h
            refine ⟨c :: b2, by simp [hb2], ?_, fun r2 => ?_⟩
            · rw [getLast?_cons_of_ne_nil]
              · exact hl2
              · intro hnil; rw [hnil] at hl2; simp at hl2
            · rw [List.cons_append, parseStringBody.eq_def]
              simp only []
              rw [if_neg hq, if_neg hbs, if_neg hctl]
              exact hrep2 r2

theorem getLast?_append_right {x y : List Char} (h : y ≠ []) :
    (x ++ y).getLast? = y.getLast? := by
  rcases List.eq_nil_or_concat y with rfl | ⟨y', c, rfl⟩
  · exact absurd rfl h
  · rw [List.concat_eq_append, ← List.append_assoc, List.getLast?_concat, List.getLast?_concat]

theorem takeDigits_append_stop :
    ∀ (ds r' : List Char), (∀ c ∈ ds, isDigit c = true) →
      (r' = [] ∨ ∃ ch t, r' = ch :: t ∧ isDigit ch = false) →
      takeDigits (ds ++ r') = (ds, r') := by
  intro ds
  induction ds with
  | nil =>
    intro r' _ hr
    rcases hr with rfl | ⟨ch, t, rfl, hch⟩
    · rfl
    · simp [takeDigits, List.takeWhile_cons, List.dropWhile_cons, hch]
  | cons d ds' ih =>
    intro r' hall hr
    have hd : isDigit d = true := hall d (by simp)
    have := ih r' (fun c hc => hall c (by simp [hc])) hr
    simp only [takeDigits, Prod.mk.injEq] at this
    simp [takeDigits, List.takeWhile_cons, List.dropWhile_cons, hd, this.1, this.2]

theorem numExpPart_spec :
    ∀ (l acc : List Char) (j : Json) (r : List Char),
      numExpPart acc l = some (j, r) →
      ∃ ext, l = ext ++ r ∧
        (ext = [] ∨ ∃ ce, ext.getLast? = some ce ∧ isDigit ce = true) ∧
        (ext = [] ∨ ∃ ch tx, ext = ch :: tx ∧ isDigit ch = false ∧ ch ≠ '.') ∧
        ∀ r2, (r2 = [] ∨ ∃ ch t, r2 = ch :: t ∧ isDigit ch = false ∧
            ch ≠ '.' ∧ ch ≠ 'e' ∧ ch ≠ 'E') →
          numExpPart acc (ext ++ r2) = some (j, r2) := by
  intro l acc j r h
  cases l with
  | nil =>
    obtain ⟨hj, hr⟩ : j = Json.num (String.mk acc) ∧ r = [] := by
      simp [numExpPart] at h
      exact ⟨h.1.symm, h.2⟩
    subst hj; subst hr
    refine ⟨[], rfl, Or.inl rfl, Or.inl rfl, fun r2 hr2 => ?_⟩
    rcases hr2 with rfl | ⟨ch, t, rfl, hch, hdot, he, hE⟩
    · rfl
    · have hcond : (decide (ch = 'e') || decide (ch = 'E')) = false := by
        simp [he, hE]
      simp [numExpPart, hcond]
  | cons c t =>
    by_cases hce : (c = 'e' ∨ c = 'E')
    · have hcond : (decide (c = 'e') || decide (c = 'E')) = true := by
        rcases hce with rfl | rfl <;> simp
      rw [numExpPart.eq_def] at h
      simp only [] at h
      rw [if_pos hcond] at h
      cases t with
      | nil => exact absurd h (by simp)
      | cons s1 t2 =>
        simp only [] at h
        by_cases hs : (s1 = '+' ∨ s1 = '-')
        · have hscond : (decide (s1 = '+') || decide (s1 = '-')) = true := by
            rcases hs with rfl | rfl <;> simp
          rw [if_pos hscond] at h
          rcases hds : takeDigits t2 with ⟨ds, r0⟩
          rw [hds] at h
          have hds' : List.takeWhile isDigit t2 = ds ∧ List.dropWhile isDigit t2 = r0 := by
            have := hds
            simp only [takeDigits, Prod.mk.injEq] at this
            exact this
          cases ds with
          | nil => exact absurd h (by simp)
          | cons d0 ds' =>
            simp only [Option.some.injEq, Prod.mk.injEq] at h
            obtain ⟨hj, rfl⟩ := h
            subst hj
            have hsplit : t2 = (d0 :: ds') ++ r0 := by
              rw [← hds'.1, ← hds'.2]
              exact (List.takeWhile_append_dropWhile isDigit t2).symm
            have hall : ∀ cc ∈ d0 :: ds', isDigit cc = true := by
              intro cc hcc
              exact List.mem_takeWhile_imp (hds'.1.symm ▸ hcc)
            obtain ⟨dsl, cl, hcl⟩ : ∃ dsl cl, d0 :: ds' = dsl ++ [cl] := by
              rcases List.eq_nil_or_concat (d0 :: ds') with he | ⟨dsl, cl, hcl⟩
              · exact absurd he (by simp)
              · exact ⟨dsl, cl, by simpa using hcl⟩
            refine ⟨c :: s1 :: d0 :: ds', by simp [hsplit], ?_, ?_, fun r2 hr2 => ?_⟩
            · right
              refine ⟨cl, ?_, hall cl (by simp [hcl])⟩
              rw [getLast?_cons_of_ne_nil (by simp), getLast?_cons_of_ne_nil (by simp), hcl,
                List.getLast?_concat]
            · right
              exact ⟨c, s1 :: d0 :: ds', rfl, by rcases hce with rfl | rfl <;> decide,
                by rcases hce with rfl | rfl <;> decide⟩
            · have hstop : takeDigits ((d0 :: ds') ++ r2) = (d0 :: ds', r2) := by
                apply takeDigits_append_stop _ _ hall
                rcases hr2 with rfl | ⟨ch, t', rfl, hch, -, -, -⟩
                · exact Or.inl rfl
                · exact Or.inr ⟨ch, t', rfl, hch⟩
              rw [List.cons_append, List.cons_append, numExpPart.eq_def]
              simp only []
              rw [if_pos hcond, if_pos hscond, hstop]
        · have h1 : ¬(s1 = '+') := fun e => hs (Or.inl e)
          have h2 : ¬(s1 = '-') := fun e => hs (Or.inr e)
          have hscond : (decide (s1 = '+') || decide (s1 = '-')) = false := by
            simp [h1, h2]
          rw [if_neg (by simp [hscond])] at h
          rcases hds : takeDigits (s1 :: t2) with ⟨ds, r0⟩
          rw [hds] at h
          have hds' : List.takeWhile isDigit (s1 :: t2) = ds ∧
              List.dropWhile isDigit (s1 :: t2) = r0 := by
            have := hds
            simp only [takeDigits, Prod.mk.injEq] at this
            exact this
          cases ds with
          | nil => exact absurd h (by simp)
          | cons d0 ds' =>
            simp only [Option.some.injEq, Prod.mk.injEq] at h
            obtain ⟨hj, rfl⟩ := h
            subst hj
            have hsplit : s1 :: t2 = (d0 :: ds') ++ r0 := by
              rw [← hds'.1, ← hds'.2]
              exact (List.takeWhile_append_dropWhile isDigit (s1 :: t2)).symm
            have hall : ∀ cc ∈ d0 :: ds', isDigit cc = true := by
              intro cc hcc
              exact List.mem_takeWhile_imp (hds'.1.symm ▸ hcc)
            obtain ⟨dsl, cl, hcl⟩ : ∃ dsl cl, d0 :: ds' = dsl ++ [cl] := by
              rcases List.eq_nil_or_concat (d0 :: ds') with he | ⟨dsl, cl, hcl⟩
              · exact absurd he (by simp)
              · exact ⟨dsl, cl, by simpa using hcl⟩
            refine ⟨c :: d0 :: ds', by rw [List.cons_append, ← hsplit], ?_, ?_, fun r2 hr2 => ?_⟩
            · right
              refine ⟨cl, ?_, hall cl (by simp [hcl])⟩
              rw [getLast?_cons_of_ne_nil (by simp), hcl, List.getLast?_concat]
            · right
              exact ⟨c, d0 :: ds', rfl, by rcases hce with rfl | rfl <;> decide,
                by rcases hce with rfl | rfl <;> decide⟩
            · have hstop : takeDigits ((d0 :: ds') ++ r2) = (d0 :: ds', r2) := by
                apply takeDigits_append_stop _ _ hall
                rcases hr2 with rfl | ⟨ch, t', rfl, hch, -, -, -⟩
                · exact Or.inl rfl
                · exact Or.inr ⟨ch, t', rfl, hch⟩
              rw [List.cons_append] at hstop
              rw [List.cons_append, List.cons_append, numExpPart.eq_def]
              simp only []
              rw [if_pos hcond]
              have hd0 : isDigit d0 = true := hall d0 (by simp)
              have hd1 : ¬(d0 = '+') := by
                intro e; rw [e] at hd0; exact absurd hd0 (by decide)
              have hd2 : ¬(d0 = '-') := by
                intro e; rw [e] at hd0; exact absurd hd0 (by decide)
              rw [if_neg (by simp [hd1, hd2]), hstop]
    · have h1 : ¬(c = 'e') := fun e => hce (Or.inl e)
      have h2 : ¬(c = 'E') := fun e => hce (Or.inr e)
      rw [numExpPart.eq_def] at h
      simp only [] at h
      rw [if_neg (by simp [h1, h2])] at h
      obtain ⟨hj, hr⟩ : j = Json.num (String.mk acc) ∧ r = c :: t := by
        simp at h
        exact ⟨h.1.symm, h.2.symm⟩
      subst hj; subst hr
      refine ⟨[], rfl, Or.inl rfl, Or.inl rfl, fun r2 hr2 => ?_⟩
      rcases hr2 with rfl | ⟨ch, t', rfl, hch, hdot, he, hE⟩
      · rfl
      · have hcond2 : (decide (ch = 'e') || decide (ch = 'E')) = false := by
          simp [he, hE]
        simp [numExpPart, hcond2]

theorem numFracPart_spec :
    ∀ (l acc : List Char) (j : Json) (r : List Char),
      numFracPart acc l = some (j, r) →
      ∃ ext, l = ext ++ r ∧
        (ext = [] ∨ ∃ ce, ext.getLast? = some ce ∧ isDigit ce = true) ∧
        (ext = [] ∨ ∃ ch tx, ext = ch :: tx ∧ isDigit ch = false) ∧
        ∀ r2, (r2 = [] ∨ ∃ ch t, r2 = ch :: t ∧ isDigit ch = false ∧
            ch ≠ '.' ∧ ch ≠ 'e' ∧ ch ≠ 'E') →
          numFracPart acc (ext ++ r2) = some (j, r2) := by
  intro l acc j r h
  cases l with
  | nil =>
    obtain ⟨hj, hr⟩ : j = Json.num (String.mk acc) ∧ r = [] := by
      simp [numFracPart] at h
      exact ⟨h.1.symm, h.2⟩
    subst hj; subst hr
    refine ⟨[], rfl, Or.inl rfl, Or.inl rfl, fun r2 hr2 => ?_⟩
    rcases hr2 with rfl | ⟨ch, t, rfl, hch, hdot, he, hE⟩
    · rfl
    · simp [numFracPart, numExpPart, hdot, he, hE]
  | cons c t =>
    by_cases hdot : c = '.'
    · subst hdot
      rw [numFracPart.eq_def] at h
      simp only [] at h
      rw [if_pos trivial] at h
      rcases hds : takeDigits t with ⟨ds, r0⟩
      rw [hds] at h
      have hds' : List.takeWhile isDigit t = ds ∧ List.dropWhile isDigit t = r0 := by
        have := hds
        simp only [takeDigits, Prod.mk.injEq] at this
        exact this
      cases ds with
      | nil => exact absurd h (by simp)
      | cons d0 ds' =>
        simp only [] at h
        obtain ⟨ext2, hr0split, hlast2, hhead2, hrep2⟩ := numExpPart_spec _ _ _ _ h
        have hsplit : t = (d0 :: ds') ++ r0 := by
          rw [← hds'.1, ← hds'.2]
          exact (List.takeWhile_append_dropWhile isDigit t).symm
        have hall : ∀ cc ∈ d0 :: ds', isDigit cc = true := by
          intro cc hcc
          exact List.mem_takeWhile_imp (hds'.1.symm ▸ hcc)
        obtain ⟨dsl, cl, hcl⟩ : ∃ dsl cl, d0 :: ds' = dsl ++ [cl] := by
          rcases List.eq_nil_or_concat (d0 :: ds') with he | ⟨dsl, cl, hcl⟩
          · exact absurd he (by simp)
          · exact ⟨dsl, cl, by simpa using hcl⟩
        refine ⟨'.' :: ((d0 :: ds') ++ ext2), ?_, ?_, ?_, fun r2 hr2 => ?_⟩
        · rw [hsplit, hr0split]
          simp
        · right
          rcases hlast2 with rfl | ⟨ce, hce, hced⟩
          · refine ⟨cl, ?_, hall cl (by simp [hcl])⟩
            rw [List.append_nil, getLast?_cons_of_ne_nil (by simp), hcl, List.getLast?_concat]
          · have hext2ne : ext2 ≠ [] := by
              intro hnil; rw [hnil] at hce; simp at hce
            refine ⟨ce, ?_, hced⟩
            rw [getLast?_cons_of_ne_nil (by simp), getLast?_append_right hext2ne]
            exact hce
        · right
          exact ⟨'.', (d0 :: ds') ++ ext2, rfl, by decide⟩
        · have hstop : takeDigits ((d0 :: ds') ++ (ext2 ++ r2)) = (d0 :: ds', ext2 ++ r2) := by
            apply takeDigits_append_stop _ _ hall
            rcases hhead2 with rfl | ⟨chx, tx, hext2, hchx, -⟩
            · rcases hr2 with rfl | ⟨ch, t', rfl, hch, -, -, -⟩
              · exact Or.inl rfl
              · exact Or.inr ⟨ch, t', rfl, hch⟩
            · rw [hext2]
              exact Or.inr ⟨chx, tx ++ r2, by simp, hchx⟩
          rw [List.cons_append, List.append_assoc, numFracPart.eq_def]
          simp only []
          rw [if_pos trivial, hstop]
          simp only []
          exact hrep2 r2 hr2
    · rw [numFracPart.eq_def] at h
      simp only [] at h
      rw [if_neg hdot] at h
      obtain ⟨ext2, hsplit, hlast2, hhead2, hrep2⟩ := numExpPart_spec _ _ _ _ h
      refine ⟨ext2, hsplit, hlast2, ?_, fun r2 hr2 => ?_⟩
      · rcases hhead2 with rfl | ⟨chx, tx, hext2, hchx, -⟩
        · exact Or.inl rfl
        · exact Or.inr ⟨chx, tx, hext2, hchx⟩
      · rcases hhead2 with rfl | ⟨chx, tx, hext2, hchx, hchxdot⟩
        · rcases hr2 with rfl | ⟨ch, t', rfl, hch, hdot', he', hE'⟩
          · exact hrep2 [] (Or.inl rfl)
          · have := hrep2 (ch :: t') (Or.inr ⟨ch, t', rfl, hch, hdot', he', hE'⟩)
            rw [List.nil_append] at this ⊢
            rw [numFracPart.eq_def]
            simp only []
            rw [if_neg hdot']
            exact this
        · rw [hext2, List.cons_append, numFracPart.eq_def]
          simp only []
          rw [if_neg hchxdot, ← List.cons_append, ← hext2]
          exact hrep2 r2 hr2

theorem parseNumber_spec :
    ∀ (l : List Char) (j : Json) (r : List Char),
      parseNumber l = some (j, r) →
      ∃ b, l = b ++ r ∧ b ≠ [] ∧ (∃ cb, b.getLast? = some cb ∧ isDigit cb = true) ∧
        ∀ r2, (r2 = [] ∨ ∃ ch t, r2 = ch :: t ∧ isDigit ch = false ∧
            ch ≠ '.' ∧ ch ≠ 'e' ∧ ch ≠ 'E') →
          parseNumber (b ++ r2) = some (j, r2) := by
  intro l j r h
  cases l with
  | nil => exact absurd h (by simp [parseNumber])
  | cons c t =>
    rw [parseNumber.eq_def] at h
    simp only [] at h
    by_cases hminus : c = '-'
    · subst hminus
      rw [if_pos (by trivial)] at h
      cases t with
      | nil => exact absurd h (by simp)
      | cons d t2 =>
        simp only [] at h
        by_cases hd0 : d = '0'
        · subst hd0
          rw [if_pos (by trivial)] at h
          obtain ⟨extF, hsplitF, hlastF, hheadF, hrepF⟩ := numFracPart_spec _ _ _ _ h
          refine ⟨'-' :: '0' :: extF, by simp [hsplitF], by simp, ?_, fun r2 hr2 => ?_⟩
          · rcases hlastF with rfl | ⟨ce, hce, hced⟩
            · exact ⟨'0', by simp, by decide⟩
            · have hne : extF ≠ [] := by intro hnil; rw [hnil] at hce; simp at hce
              refine ⟨ce, ?_, hced⟩
              rw [getLast?_cons_of_ne_nil (by simp), getLast?_cons_of_ne_nil hne]
              exact hce
          · rw [List.cons_append, List.cons_append, parseNumber.eq_def]
            simp only []
            rw [if_pos (by trivial)]
            rw [if_pos (by trivial)]
            exact hrepF r2 hr2
        · rw [if_neg hd0] at h
          by_cases hdd : isDigit d = true
          · rw [if_pos hdd] at h
            rcases hds : takeDigits t2 with ⟨ds, r0⟩
            rw [hds] at h
            change numFracPart ('-' :: d :: ds) r0 = some (j, r) at h
            have hds' : List.takeWhile isDigit t2 = ds ∧ List.dropWhile isDigit t2 = r0 := by
              have := hds
              simp only [takeDigits, Prod.mk.injEq] at this
              exact this
            have hall : ∀ cc ∈ ds, isDigit cc = true := by
              intro cc hcc
              exact List.mem_takeWhile_imp (hds'.1.symm ▸ hcc)
            have hsplit : t2 = ds ++ r0 := by
              rw [← hds'.1, ← hds'.2]
              exact (List.takeWhile_append_dropWhile isDigit t2).symm
            obtain ⟨extF, hsplitF, hlastF, hheadF, hrepF⟩ := numFracPart_spec _ _ _ _ h
            refine ⟨'-' :: d :: (ds ++ extF), by simp [hsplit, hsplitF], by simp,
              ?_, fun r2 hr2 => ?_⟩
            · rcases hlastF with rfl | ⟨ce, hce, hced⟩
              · rcases List.eq_nil_or_concat ds with rfl | ⟨ds1, dl, hdl⟩
                · exact ⟨d, by simp, hdd⟩
                · rw [List.concat_eq_append] at hdl
                  refine ⟨dl, ?_, hall dl (by simp [hdl])⟩
                  rw [getLast?_cons_of_ne_nil (by simp),
                    getLast?_cons_of_ne_nil (by simp [hdl]), List.append_nil, hdl,
                    List.getLast?_concat]
              · have hne : extF ≠ [] := by intro hnil; rw [hnil] at hce; simp at hce
                refine ⟨ce, ?_, hced⟩
                rw [getLast?_cons_of_ne_nil (by simp),
                  getLast?_cons_of_ne_nil (by simp [hne]), getLast?_append_right hne]
                exact hce
            · have hstop : takeDigits (ds ++ (extF ++ r2)) = (ds, extF ++ r2) := by
                apply takeDigits_append_stop _ _ hall
                rcases hheadF with rfl | ⟨chx, tx, hextF, hchx⟩
                · rcases hr2 with rfl | ⟨ch, t', rfl, hch, -, -, -⟩
                  · exact Or.inl rfl
                  · exact Or.inr ⟨ch, t', rfl, hch⟩
                · rw [hextF]
                  exact Or.inr ⟨chx, tx ++ r2, by simp, hchx⟩
              rw [List.cons_append, List.cons_append, parseNumber.eq_def]
              simp only []
              rw [if_pos (by trivial)]
              rw [if_neg hd0, if_pos hdd, List.append_assoc, hstop]
              exact hrepF r2 hr2
          · rw [if_neg hdd] at h
            exact absurd h (by simp)
    · rw [if_neg hminus] at h
      by_cases hz : c = '0'
      · subst hz
        rw [if_pos (by trivial)] at h
        obtain ⟨extF, hsplitF, hlastF, hheadF, hrepF⟩ := numFracPart_spec _ _ _ _ h
        refine ⟨'0' :: extF, by simp [hsplitF], by simp, ?_, fun r2 hr2 => ?_⟩
        · rcases hlastF with rfl | ⟨ce, hce, hced⟩
          · exact ⟨'0', by simp, by decide⟩
          · have hne : extF ≠ [] := by intro hnil; rw [hnil] at hce; simp at hce
            refine ⟨ce, ?_, hced⟩
            rw [getLast?_cons_of_ne_nil hne]
            exact hce
        · rw [List.cons_append, parseNumber.eq_def]
          simp only []
          rw [if_neg hminus, if_pos (by trivial)]
          exact hrepF r2 hr2
      · rw [if_neg hz] at h
        by_cases hcd : isDigit c = true
        · rw [if_pos hcd] at h
          rcases hds : takeDigits t with ⟨ds, r0⟩
          rw [hds] at h
          change numFracPart (c :: ds) r0 = some (j, r) at h
          have hds' : List.takeWhile isDigit t = ds ∧ List.dropWhile isDigit t = r0 := by
            have := hds
            simp only [takeDigits, Prod.mk.injEq] at this
            exact this
          have hall : ∀ cc ∈ ds, isDigit cc = true := by
            intro cc hcc
            exact List.mem_takeWhile_imp (hds'.1.symm ▸ hcc)
          have hsplit : t = ds ++ r0 := by
            rw [← hds'.1, ← hds'.2]
            exact (List.takeWhile_append_dropWhile isDigit t).symm
          obtain ⟨extF, hsplitF, hlastF, hheadF, hrepF⟩ := numFracPart_spec _ _ _ _ h
          refine ⟨c :: (ds ++ extF), by simp [hsplit, hsplitF], by simp,
            ?_, fun r2 hr2 => ?_⟩
          · rcases hlastF with rfl | ⟨ce, hce, hced⟩
            · rcases List.eq_nil_or_concat ds with rfl | ⟨ds1, dl, hdl⟩
              · exact ⟨c, by simp, hcd⟩
              · rw [List.concat_eq_append] at hdl
                refine ⟨dl, ?_, hall dl (by simp [hdl])⟩
                rw [getLast?_cons_of_ne_nil (by simp [hdl]), List.append_nil, hdl,
                  List.getLast?_concat]
            · have hne : extF ≠ [] := by intro hnil; rw [hnil] at hce; simp at hce
              refine ⟨ce, ?_, hced⟩
              rw [getLast?_cons_of_ne_nil (by simp [hne]), getLast?_append_right hne]
              exact hce
          · have hstop : takeDigits (ds ++ (extF ++ r2)) = (ds, extF ++ r2) := by
              apply takeDigits_append_stop _ _ hall
              rcases hheadF with rfl | ⟨chx, tx, hextF, hchx⟩
              · rcases hr2 with rfl | ⟨ch, t', rfl, hch, -, -, -⟩
                · exact Or.inl rfl
                · exact Or.inr ⟨ch, t', rfl, hch⟩
              · rw [hextF]
                exact Or.inr ⟨chx, tx ++ r2, by simp, hchx⟩
            rw [List.cons_append, parseNumber.eq_def]
            simp only []
            rw [if_neg hminus, if_neg hz, if_pos hcd, List.append_assoc, hstop]
            exact hrepF r2 hr2
        · rw [if_neg hcd] at h
          exact absurd h (by simp)

theorem jsonWs_noNumExt :
    ∀ c : Char, isJsonWs c = true →
      isDigit c = false ∧ c ≠ '.' ∧ c ≠ 'e' ∧ c ≠ 'E' := by
  intro c h
  refine ⟨?_, ?_, ?_, ?_⟩
  · cases hd : isDigit c
    · rfl
    · exfalso
      simp only [isJsonWs, Bool.or_eq_true, decide_eq_true_eq] at h
      simp only [isDigit, Bool.and_eq_true, decide_eq_true_eq] at hd
      omega
  · intro e; subst e; exact absurd h (by decide)
  · intro e; subst e; exact absurd h (by decide)
  · intro e; subst e; exact absurd h (by decide)

theorem cond_of_ws_append (w : List Char) (c1 : Char) (X : List Char)
    (hw : ∀ c ∈ w, isJsonWs c = true)
    (hc1 : isDigit c1 = false ∧ c1 ≠ '.' ∧ c1 ≠ 'e' ∧ c1 ≠ 'E') :
    w ++ (c1 :: X) = [] ∨ ∃ ch t, w ++ (c1 :: X) = ch :: t ∧ isDigit ch = false ∧
      ch ≠ '.' ∧ ch ≠ 'e' ∧ ch ≠ 'E' := by
  cases w with
  | nil => exact Or.inr ⟨c1, X, rfl, hc1.1, hc1.2.1, hc1.2.2.1, hc1.2.2.2⟩
  | cons a w' =>
    have := jsonWs_noNumExt a (hw a (by simp))
    exact Or.inr ⟨a, w' ++ (c1 :: X), rfl, this.1, this.2.1, this.2.2.1, this.2.2.2⟩

theorem skipWs_ws_append (w : List Char) (hw : ∀ c ∈ w, isJsonWs c = true)
    (ch : Char) (hch : isJsonWs ch = false) (X : List Char) :
    skipWs (w ++ (ch :: X)) = ch :: X := by
  rw [show skipWs (w ++ (ch :: X)) = List.dropWhile isJsonWs (w ++ (ch :: X)) from rfl,
    dropWhile_append_of_all _ _ hw]
  exact dropWhile_cons_of_neg hch

theorem dropWhile_head_false {p : Char → Bool} :
    ∀ (X : List Char) (c : Char) (Y : List Char),
      List.dropWhile p X = c :: Y → p c = false := by
  intro X
  induction X with
  | nil => intro c Y h; simp at h
  | cons a t ih =>
    intro c Y h
    rw [List.dropWhile_cons] at h
    by_cases hp : p a = true
    · rw [if_pos hp] at h
      exact ih c Y h
    · rw [if_neg hp] at h
      injection h with h1 _
      cases hb : p c
      · rfl
      · rw [← h1] at hb
        exact absurd hb hp

theorem skipWs_decomp {X : List Char} {c : Char} {Y : List Char} (h : skipWs X = c :: Y) :
    X = X.takeWhile isJsonWs ++ (c :: Y) ∧
    (∀ cc ∈ X.takeWhile isJsonWs, isJsonWs cc = true) ∧
    isJsonWs c = false := by
  refine ⟨?_, fun cc hcc => List.mem_takeWhile_imp hcc, dropWhile_head_false X c Y h⟩
  rw [← h]
  exact (List.takeWhile_append_dropWhile isJsonWs X).symm

theorem skipWs_self_decomp (X : List Char) :
    X = X.takeWhile isJsonWs ++ skipWs X ∧
    ∀ cc ∈ X.takeWhile isJsonWs, isJsonWs cc = true := by
  refine ⟨?_, fun cc hcc => List.mem_takeWhile_imp hcc⟩
  rw [show skipWs X = List.dropWhile isJsonWs X from rfl]
  exact (List.takeWhile_append_dropWhile isJsonWs X).symm

theorem parseCore_spec :
    ∀ (fuel : Nat) (mode : PMode) (l : List Char) (v : Json) (r : List Char),
      parseCore fuel mode l = some (v, r) →
      ∃ b, l = b ++ r ∧ b ≠ [] ∧
        (∃ ch bt, b = ch :: bt ∧ isJsWs ch = false) ∧
        (∃ cb, b.getLast? = some cb ∧ isJsWs cb = false) ∧
        ∀ (fuel2 : Nat) (r2 : List Char),
          b.length + 1 ≤ fuel2 →
          (r2 = [] ∨ ∃ ch t, r2 = ch :: t ∧ isDigit ch = false ∧
              ch ≠ '.' ∧ ch ≠ 'e' ∧ ch ≠ 'E') →
          parseCore fuel2 mode (b ++ r2) = some (v, r2) := by
  intro fuel
  induction fuel with
  | zero => intro mode l v r h; exact absurd h (by simp [parseCore])
  | succ n ih =>
    intro mode l v r h
    cases mode with
    | value =>
      cases l with
      | nil => exact absurd h (by simp [parseCore])
      | cons c t =>
        simp only [parseCore] at h
        by_cases hc1 : c = lbrace
        · rw [if_pos hc1] at h
          rcases hsk : skipWs t with _ | ⟨r1, t2⟩
          · rw [hsk] at h
            exact absurd h (by simp)
          · rw [hsk] at h
            simp only [] at h
            obtain ⟨htdec, hwall, hr1ws⟩ := skipWs_decomp hsk
            by_cases hrb : r1 = rbrace
            · rw [if_pos hrb] at h
              obtain ⟨hv, hr⟩ : Json.obj [] = v ∧ t2 = r := by
                simp at h
                exact ⟨h.1, h.2⟩
              subst hr
              refine ⟨c :: (t.takeWhile isJsonWs ++ [r1]), ?_, by simp, ?_, ?_, ?_⟩
              · rw [List.cons_append, List.append_assoc, List.singleton_append, ← htdec]
              · exact ⟨c, _, rfl, by rw [hc1]; decide⟩
              · refine ⟨r1, ?_, by rw [hrb]; decide⟩
                rw [show c :: (t.takeWhile isJsonWs ++ [r1]) =
                    (c :: t.takeWhile isJsonWs) ++ [r1] from rfl, List.getLast?_concat]
              · intro fuel2 r2 hfuel hcond
                cases fuel2 with
                | zero => exact absurd hfuel (by omega)
                | succ F =>
                  rw [show (c :: (t.takeWhile isJsonWs ++ [r1])) ++ r2 =
                      c :: (t.takeWhile isJsonWs ++ (r1 :: r2)) from by simp]
                  simp only [parseCore]
                  rw [if_pos hc1, skipWs_ws_append _ hwall r1 hr1ws]
                  simp only []
                  rw [if_pos hrb, ← hv]
            · rw [if_neg hrb] at h
              obtain ⟨b2, hb2split, hb2ne, ⟨ch2, bt2, hb2head, hch2⟩,
                ⟨cb2, hlast2, hcb2⟩, hrep2⟩ := ih (PMode.members []) (r1 :: t2) v r h
              have hch2r1 : ch2 = r1 := by
                rw [hb2head] at hb2split
                injection hb2split with h1 h2
                exact h1.symm
              refine ⟨c :: (t.takeWhile isJsonWs ++ b2), ?_, by simp, ?_, ?_, ?_⟩
              · rw [List.cons_append, List.append_assoc, ← hb2split, ← htdec]
              · exact ⟨c, _, rfl, by rw [hc1]; decide⟩
              · refine ⟨cb2, ?_, hcb2⟩
                rw [getLast?_cons_of_ne_nil (by simp [hb2ne]), getLast?_append_right hb2ne]
                exact hlast2
              · intro fuel2 r2 hfuel hcond
                cases fuel2 with
                | zero => exact absurd hfuel (by omega)
                | succ F =>
                  rw [show (c :: (t.takeWhile isJsonWs ++ b2)) ++ r2 =
                      c :: (t.takeWhile isJsonWs ++ (b2 ++ r2)) from by simp]
                  simp only [parseCore]
                  rw [if_pos hc1]
                  have hb2r2 : b2 ++ r2 = ch2 :: (bt2 ++ r2) := by rw [hb2head]; simp
                  rw [show t.takeWhile isJsonWs ++ (b2 ++ r2) =
                      t.takeWhile isJsonWs ++ (ch2 :: (bt2 ++ r2)) from by rw [hb2r2],
                    skipWs_ws_append _ hwall ch2 (not_jsWs_not_jsonWs hch2)]
                  simp only []
                  have hne2 : ¬(ch2 = rbrace) := by rw [hch2r1]; exact hrb
                  rw [if_neg hne2, ← hb2r2]
                  apply hrep2 F r2 ?_ hcond
                  have hlen := List.length_append (t.takeWhile isJsonWs) b2
                  simp only [List.length_cons] at hfuel
                  omega
        · rw [if_neg hc1] at h
          by_cases hc2 : c = '['
          · rw [if_pos hc2] at h
            rcases hsk : skipWs t with _ | ⟨r1, t2⟩
            · rw [hsk] at h
              exact absurd h (by simp)
            · rw [hsk] at h
              simp only [] at h
              obtain ⟨htdec, hwall, hr1ws⟩ := skipWs_decomp hsk
              by_cases hrb : r1 = ']'
              · rw [if_pos hrb] at h
                obtain ⟨hv, hr⟩ : Json.arr [] = v ∧ t2 = r := by
                  simp at h
                  exact ⟨h.1, h.2⟩
                subst hr
                refine ⟨c :: (t.takeWhile isJsonWs ++ [r1]), ?_, by simp, ?_, ?_, ?_⟩
                · rw [List.cons_append, List.append_assoc, List.singleton_append, ← htdec]
                · exact ⟨c, _, rfl, by rw [hc2]; decide⟩
                · refine ⟨r1, ?_, by rw [hrb]; decide⟩
                  rw [show c :: (t.takeWhile isJsonWs ++ [r1]) =
                      (c :: t.takeWhile isJsonWs) ++ [r1] from rfl, List.getLast?_concat]
                · intro fuel2 r2 hfuel hcond
                  cases fuel2 with
                  | zero => exact absurd hfuel (by omega)
                  | succ F =>
                    rw [show (c :: (t.takeWhile isJsonWs ++ [r1])) ++ r2 =
                        c :: (t.takeWhile isJsonWs ++ (r1 :: r2)) from by simp]
                    simp only [parseCore]
                    rw [if_neg hc1, if_pos hc2, skipWs_ws_append _ hwall r1 hr1ws]
                    simp only []
                    rw [if_pos hrb, ← hv]
              · rw [if_neg hrb] at h
                obtain ⟨b2, hb2split, hb2ne, ⟨ch2, bt2, hb2head, hch2⟩,
                  ⟨cb2, hlast2, hcb2⟩, hrep2⟩ := ih (PMode.elements []) (r1 :: t2) v r h
                have hch2r1 : ch2 = r1 := by
                  rw [hb2head] at hb2split
                  injection hb2split with h1 h2
                  exact h1.symm
                refine ⟨c :: (t.takeWhile isJsonWs ++ b2), ?_, by simp, ?_, ?_, ?_⟩
                · rw [List.cons_append, List.append_assoc, ← hb2split, ← htdec]
                · exact ⟨c, _, rfl, by rw [hc2]; decide⟩
                · refine ⟨cb2, ?_, hcb2⟩
                  rw [getLast?_cons_of_ne_nil (by simp [hb2ne]), getLast?_append_right hb2ne]
                  exact hlast2
                · intro fuel2 r2 hfuel hcond
                  cases fuel2 with
                  | zero => exact absurd hfuel (by omega)
                  | succ F =>
                    rw [show (c :: (t.takeWhile isJsonWs ++ b2)) ++ r2 =
                        c :: (t.takeWhile isJsonWs ++ (b2 ++ r2)) from by simp]
                    simp only [parseCore]
                    rw [if_neg hc1, if_pos hc2]
                    have hb2r2 : b2 ++ r2 = ch2 :: (bt2 ++ r2) := by rw [hb2head]; simp
                    rw [show t.takeWhile isJsonWs ++ (b2 ++ r2) =
                        t.takeWhile isJsonWs ++ (ch2 :: (bt2 ++ r2)) from by rw [hb2r2],
                      skipWs_ws_append _ hwall ch2 (not_jsWs_not_jsonWs hch2)]
                    simp only []
                    have hne2 : ¬(ch2 = ']') := by rw [hch2r1]; exact hrb
                    rw [if_neg hne2, ← hb2r2]
                    apply hrep2 F r2 ?_ hcond
                    have hlen := List.length_append (t.takeWhile isJsonWs) b2
                    simp only [List.length_cons] at hfuel
                    omega
          · rw [if_neg hc2] at h
            by_cases hc3 : c = '"'
            · rw [if_pos hc3] at h
              rcases hsb : parseStringBody [] t with _ | ⟨s, r1⟩
              · rw [hsb] at h
                exact absurd h (by simp)
              · rw [hsb] at h
                obtain ⟨hv, hr⟩ : Json.str s = v ∧ r1 = r := by
                  simp at h
                  exact ⟨h.1, h.2⟩
                subst hr
                obtain ⟨bs, hbs, hbslast, hbsrep⟩ :=
                  parseStringBody_spec t.length t (le_refl _) [] s r1 hsb
                have hbsne : bs ≠ [] := by
                  intro hnil; rw [hnil] at hbslast; simp at hbslast
                refine ⟨c :: bs, by simp [hbs], by simp, ?_, ?_, ?_⟩
                · exact ⟨c, bs, rfl, by rw [hc3]; decide⟩
                · refine ⟨'"', ?_, by decide⟩
                  rw [getLast?_cons_of_ne_nil hbsne]
                  exact hbslast
                · intro fuel2 r2 hfuel hcond
                  cases fuel2 with
                  | zero => exact absurd hfuel (by omega)
                  | succ F =>
                    rw [List.cons_append]
                    simp only [parseCore]
                    rw [if_neg hc1, if_neg hc2, if_pos hc3, hbsrep r2, ← hv]
            · rw [if_neg hc3] at h
              by_cases hc4 : c = 't'
              · rw [if_pos hc4] at h
                cases t with
                | nil => exact absurd h (by simp)
                | cons c1 t1 =>
                  cases t1 with
                  | nil => simp at h
                  | cons c2 t2 =>
                    cases t2 with
                    | nil => simp at h
                    | cons c3 t3 =>
                      split at h
                      next rr heq =>
                        obtain ⟨hv, hr⟩ : Json.bool true = v ∧ rr = r := by
                          simp at h
                          exact ⟨h.1, h.2⟩
                        subst hr
                        injection heq with e1 heq
                        injection heq with e2 heq
                        injection heq with e3 e4
                        subst e1; subst e2; subst e3; subst e4
                        refine ⟨[c, 'r', 'u', 'e'], by simp, by simp,
                          ⟨c, _, rfl, by rw [hc4]; decide⟩,
                          ⟨'e', by simp, by decide⟩, ?_⟩
                        intro fuel2 r2 hfuel hcond
                        cases fuel2 with
                        | zero => exact absurd hfuel (by omega)
                        | succ F =>
                          simp only [List.cons_append, List.nil_append]
                          simp only [parseCore]
                          rw [if_neg hc1, if_neg hc2, if_neg hc3, if_pos hc4, ← hv]
                      next hne => simp at h
              · rw [if_neg hc4] at h
                by_cases hc5 : c = 'f'
                · rw [if_pos hc5] at h
                  cases t with
                  | nil => exact absurd h (by simp)
                  | cons c1 t1 =>
                    cases t1 with
                    | nil => simp at h
                    | cons c2 t2 =>
                      cases t2 with
                      | nil => simp at h
                      | cons c3 t3 =>
                        cases t3 with
                        | nil => simp at h
                        | cons c4 t4 =>
                          split at h
                          next rr heq =>
                            obtain ⟨hv, hr⟩ : Json.bool false = v ∧ rr = r := by
                              simp at h
                              exact ⟨h.1, h.2⟩
                            subst hr
                            injection heq with e1 heq
                            injection heq with e2 heq
                            injection heq with e3 heq
                            injection heq with e4 e5
                            subst e1; subst e2; subst e3; subst e4; subst e5
                            refine ⟨[c, 'a', 'l', 's', 'e'], by simp, by simp,
                              ⟨c, _, rfl, by rw [hc5]; decide⟩,
                              ⟨'e', by simp, by decide⟩, ?_⟩
                            intro fuel2 r2 hfuel hcond
                            cases fuel2 with
                            | zero => exact absurd hfuel (by omega)
                            | succ F =>
                              simp only [List.cons_append, List.nil_append]
                              simp only [parseCore]
                              rw [if_neg hc1, if_neg hc2, if_neg hc3, if_neg hc4,
                                if_pos hc5, ← hv]
                          next hne => simp at h
                · rw [if_neg hc5] at h
                  by_cases hc6 : c = 'n'
                  · rw [if_pos hc6] at h
                    cases t with
                    | nil => exact absurd h (by simp)
                    | cons c1 t1 =>
                      cases t1 with
                      | nil => simp at h
                      | cons c2 t2 =>
                        cases t2 with
                        | nil => simp at h
                        | cons c3 t3 =>
                          split at h
                          next rr heq =>
                            obtain ⟨hv, hr⟩ : Json.null = v ∧ rr = r := by
                              simp at h
                              exact ⟨h.1, h.2⟩
                            subst hr
                            injection heq with e1 heq
                            injection heq with e2 heq
                            injection heq with e3 e4
                            subst e1; subst e2; subst e3; subst e4
                            refine ⟨[c, 'u', 'l', 'l'], by simp, by simp,
                              ⟨c, _, rfl, by rw [hc6]; decide⟩,
                              ⟨'l', by simp, by decide⟩, ?_⟩
                            intro fuel2 r2 hfuel hcond
                            cases fuel2 with
                            | zero => exact absurd hfuel (by omega)
                            | succ F =>
                              simp only [List.cons_append, List.nil_append]
                              simp only [parseCore]
                              rw [if_neg hc1, if_neg hc2, if_neg hc3, if_neg hc4,
                                if_neg hc5, if_pos hc6, ← hv]
                          next hne => simp at h
                  · rw [if_neg hc6] at h
                    by_cases hnum : (decide (c = '-') || isDigit c) = true
                    · rw [if_pos hnum] at h
                      obtain ⟨bn, hbn, hbnne, ⟨cbn, hbnlast, hbndig⟩, hbnrep⟩ :=
                        parseNumber_spec _ _ _ h
                      obtain ⟨chn, btn, hbnhead⟩ : ∃ chn btn, bn = chn :: btn := by
                        cases bn with
                        | nil => exact absurd rfl hbnne
                        | cons x y => exact ⟨x, y, rfl⟩
                      have hchnc : chn = c := by
                        rw [hbnhead] at hbn
                        injection hbn with h1 h2
                        exact h1.symm
                      refine ⟨bn, hbn, hbnne, ?_, ⟨cbn, hbnlast, isDigit_not_jsWs hbndig⟩, ?_⟩
                      · refine ⟨chn, btn, hbnhead, ?_⟩
                        rw [hchnc]
                        rcases Bool.or_eq_true _ _ |>.mp hnum with hminus | hdig
                        · rw [decide_eq_true_eq.mp hminus]
                          decide
                        · exact isDigit_not_jsWs hdig
                      · intro fuel2 r2 hfuel hcond
                        cases fuel2 with
                        | zero => exact absurd hfuel (by omega)
                        | succ F =>
                          rw [hbnhead, List.cons_append]
                          simp only [parseCore]
                          have e1 : ¬(chn = lbrace) := by rw [hchnc]; exact hc1
                          have e2 : ¬(chn = '[') := by rw [hchnc]; exact hc2
                          have e3 : ¬(chn = '"') := by rw [hchnc]; exact hc3
                          have e4 : ¬(chn = 't') := by rw [hchnc]; exact hc4
                          have e5 : ¬(chn = 'f') := by rw [hchnc]; exact hc5
                          have e6 : ¬(chn = 'n') := by rw [hchnc]; exact hc6
                          have e7 : (decide (chn = '-') || isDigit chn) = true := by
                            rw [hchnc]; exact hnum
                          rw [if_neg e1, if_neg e2, if_neg e3, if_neg e4, if_neg e5,
                            if_neg e6, if_pos e7, ← List.cons_append, ← hbnhead]
                          exact hbnrep r2 hcond
                    · rw [if_neg hnum] at h
                      exact absurd h (by simp)
    | members acc =>
      cases l with
      | nil => exact absurd h (by simp [parseCore])
      | cons c t =>
        simp only [parseCore] at h
        by_cases hcq : c = '"'
        · rw [if_pos hcq] at h
          rcases hsb : parseStringBody [] t with _ | ⟨k, r1⟩
          · rw [hsb] at h
            exact absurd h (by simp)
          · rw [hsb] at h
            simp only [] at h
            rcases hsk1 : skipWs r1 with _ | ⟨c2, r2⟩
            · rw [hsk1] at h
              exact absurd h (by simp)
            · rw [hsk1] at h
              simp only [] at h
              by_cases hcol : c2 = ':'
              · rw [if_pos hcol] at h
                rcases hval : parseCore n PMode.value (skipWs r2) with _ | ⟨v1, r3⟩
                · rw [hval] at h
                  exact absurd h (by simp)
                · rw [hval] at h
                  simp only [] at h
                  rcases hsk3 : skipWs r3 with _ | ⟨c3, r4⟩
                  · rw [hsk3] at h
                    exact absurd h (by simp)
                  · rw [hsk3] at h
                    simp only [] at h
                    obtain ⟨bs, hbs, hbslast, hbsrep⟩ :=
                      parseStringBody_spec t.length t (le_refl _) [] k r1 hsb
                    obtain ⟨hr1dec, hw1all, hc2ws⟩ := skipWs_decomp hsk1
                    obtain ⟨hr2dec, hw2all⟩ := skipWs_self_decomp r2
                    obtain ⟨b3, hb3split, hb3ne, ⟨ch3, bt3, hb3head, hch3⟩,
                      ⟨cb3, hb3last, hcb3⟩, hrep3⟩ := ih PMode.value (skipWs r2) v1 r3 hval
                    rw [hb3split] at hr2dec
                    obtain ⟨hr3dec, hw4all, hc3ws⟩ := skipWs_decomp hsk3
                    by_cases hcomma : c3 = ','
                    · rw [if_pos hcomma] at h
                      obtain ⟨b5, hb5split, hb5ne, ⟨ch5, bt5, hb5head, hch5⟩,
                        ⟨cb5, hb5last, hcb5⟩, hrep5⟩ :=
                        ih (PMode.members (acc ++ [(k, v1)])) (skipWs r4) v r h
                      obtain ⟨hr4dec, hw5all⟩ := skipWs_self_decomp r4
                      rw [hb5split] at hr4dec
                      refine ⟨c :: (bs ++ (r1.takeWhile isJsonWs ++ (c2 ::
                        (r2.takeWhile isJsonWs ++ (b3 ++ (r3.takeWhile isJsonWs ++ (c3 ::
                        (r4.takeWhile isJsonWs ++ b5)))))))), ?_, by simp, ?_, ?_, ?_⟩
                      · rw [show (c :: (bs ++ (r1.takeWhile isJsonWs ++ (c2 ::
                            (r2.takeWhile isJsonWs ++ (b3 ++ (r3.takeWhile isJsonWs ++ (c3 ::
                            (r4.takeWhile isJsonWs ++ b5))))))))) ++ r =
                            c :: (bs ++ (r1.takeWhile isJsonWs ++ (c2 ::
                            (r2.takeWhile isJsonWs ++ (b3 ++ (r3.takeWhile isJsonWs ++ (c3 ::
                            (r4.takeWhile isJsonWs ++ (b5 ++ r))))))))) from by simp]
                        rw [← hr4dec, ← hr3dec, ← hr2dec, ← hr1dec, ← hbs]
                      · exact ⟨c, _, rfl, by rw [hcq]; decide⟩
                      · refine ⟨cb5, ?_, hcb5⟩
                        rw [show c :: (bs ++ (r1.takeWhile isJsonWs ++ (c2 ::
                            (r2.takeWhile isJsonWs ++ (b3 ++ (r3.takeWhile isJsonWs ++ (c3 ::
                            (r4.takeWhile isJsonWs ++ b5)))))))) =
                            (c :: (bs ++ (r1.takeWhile isJsonWs ++ (c2 ::
                            (r2.takeWhile isJsonWs ++ (b3 ++ (r3.takeWhile isJsonWs ++ (c3 ::
                            r4.takeWhile isJsonWs)))))))) ++ b5 from by simp,
                          getLast?_append_right hb5ne]
                        exact hb5last
                      · intro fuel2 r2x hfuel hcond
                        cases fuel2 with
                        | zero => exact absurd hfuel (by omega)
                        | succ F =>
                          rw [show (c :: (bs ++ (r1.takeWhile isJsonWs ++ (c2 ::
                              (r2.takeWhile isJsonWs ++ (b3 ++ (r3.takeWhile isJsonWs ++ (c3 ::
                              (r4.takeWhile isJsonWs ++ b5))))))))) ++ r2x =
                              c :: (bs ++ (r1.takeWhile isJsonWs ++ (c2 ::
                              (r2.takeWhile isJsonWs ++ (b3 ++ (r3.takeWhile isJsonWs ++ (c3 ::
                              (r4.takeWhile isJsonWs ++ (b5 ++ r2x))))))))) from by simp]
                          simp only [parseCore]
                          rw [if_pos hcq, hbsrep]
                          simp only []
                          rw [skipWs_ws_append _ hw1all c2 hc2ws]
                          simp only []
                          rw [if_pos hcol]
                          have hb3X : b3 ++ (r3.takeWhile isJsonWs ++ (c3 ::
                              (r4.takeWhile isJsonWs ++ (b5 ++ r2x)))) =
                              ch3 :: (bt3 ++ (r3.takeWhile isJsonWs ++ (c3 ::
                              (r4.takeWhile isJsonWs ++ (b5 ++ r2x))))) := by
                            rw [hb3head]; simp
                          rw [show r2.takeWhile isJsonWs ++ (b3 ++ (r3.takeWhile isJsonWs ++
                              (c3 :: (r4.takeWhile isJsonWs ++ (b5 ++ r2x))))) =
                              r2.takeWhile isJsonWs ++ (ch3 :: (bt3 ++ (r3.takeWhile isJsonWs ++
                              (c3 :: (r4.takeWhile isJsonWs ++ (b5 ++ r2x)))))) from by
                                rw [hb3X],
                            skipWs_ws_append _ hw2all ch3 (not_jsWs_not_jsonWs hch3), ← hb3X]
                          have hfa : b3.length + 1 ≤ F ∧ b5.length + 1 ≤ F := by
                            simp only [List.length_cons, List.length_append] at hfuel
                            omega
                          rw [hrep3 F _ hfa.1 (cond_of_ws_append _ c3 _ hw4all
                            ⟨by rw [hcomma]; decide, by rw [hcomma]; decide,
                             by rw [hcomma]; decide, by rw [hcomma]; decide⟩)]
                          simp only []
                          rw [skipWs_ws_append _ hw4all c3 hc3ws]
                          simp only []
                          rw [if_pos hcomma]
                          have hb5X : b5 ++ r2x = ch5 :: (bt5 ++ r2x) := by
                            rw [hb5head]; simp
                          rw [show r4.takeWhile isJsonWs ++ (b5 ++ r2x) =
                              r4.takeWhile isJsonWs ++ (ch5 :: (bt5 ++ r2x)) from by rw [hb5X],
                            skipWs_ws_append _ hw5all ch5 (not_jsWs_not_jsonWs hch5), ← hb5X]
                          exact hrep5 F r2x hfa.2 hcond
                    · rw [if_neg hcomma] at h
                      by_cases hrb : c3 = rbrace
                      · rw [if_pos hrb] at h
                        obtain ⟨hv, hr⟩ : Json.obj (acc ++ [(k, v1)]) = v ∧ r4 = r := by
                          simp at h
                          exact ⟨h.1, h.2⟩
                        subst hr
                        refine ⟨c :: (bs ++ (r1.takeWhile isJsonWs ++ (c2 ::
                          (r2.takeWhile isJsonWs ++ (b3 ++ (r3.takeWhile isJsonWs ++ [c3])))))),
                          ?_, by simp, ?_, ?_, ?_⟩
                        · rw [show (c :: (bs ++ (r1.takeWhile isJsonWs ++ (c2 ::
                              (r2.takeWhile isJsonWs ++ (b3 ++ (r3.takeWhile isJsonWs ++
                              [c3]))))))) ++ r4 =
                              c :: (bs ++ (r1.takeWhile isJsonWs ++ (c2 ::
                              (r2.takeWhile isJsonWs ++ (b3 ++ (r3.takeWhile isJsonWs ++
                              (c3 :: r4))))))) from by simp]
                          rw [← hr3dec, ← hr2dec, ← hr1dec, ← hbs]
                        · exact ⟨c, _, rfl, by rw [hcq]; decide⟩
                        · refine ⟨c3, ?_, by rw [hrb]; decide⟩
                          rw [show c :: (bs ++ (r1.takeWhile isJsonWs ++ (c2 ::
                              (r2.takeWhile isJsonWs ++ (b3 ++ (r3.takeWhile isJsonWs ++
                              [c3])))))) =
                              (c :: (bs ++ (r1.takeWhile isJsonWs ++ (c2 ::
                              (r2.takeWhile isJsonWs ++ (b3 ++ r3.takeWhile isJsonWs)))))) ++
                              [c3] from by simp]
                          exact List.getLast?_concat _
                        · intro fuel2 r2x hfuel hcond
                          cases fuel2 with
                          | zero => exact absurd hfuel (by omega)
                          | succ F =>
                            rw [show (c :: (bs ++ (r1.takeWhile isJsonWs ++ (c2 ::
                                (r2.takeWhile isJsonWs ++ (b3 ++ (r3.takeWhile isJsonWs ++
                                [c3]))))))) ++ r2x =
                                c :: (bs ++ (r1.takeWhile isJsonWs ++ (c2 ::
                                (r2.takeWhile isJsonWs ++ (b3 ++ (r3.takeWhile isJsonWs ++
                                (c3 :: r2x))))))) from by simp]
                            simp only [parseCore]
                            rw [if_pos hcq, hbsrep]
                            simp only []
                            rw [skipWs_ws_append _ hw1all c2 hc2ws]
                            simp only []
                            rw [if_pos hcol]
                            have hb3X : b3 ++ (r3.takeWhile isJsonWs ++ (c3 :: r2x)) =
                                ch3 :: (bt3 ++ (r3.takeWhile isJsonWs ++ (c3 :: r2x))) := by
                              rw [hb3head]; simp
                            rw [show r2.takeWhile isJsonWs ++ (b3 ++ (r3.takeWhile isJsonWs ++
                                (c3 :: r2x))) =
                                r2.takeWhile isJsonWs ++ (ch3 :: (bt3 ++
                                (r3.takeWhile isJsonWs ++ (c3 :: r2x)))) from by rw [hb3X],
                              skipWs_ws_append _ hw2all ch3 (not_jsWs_not_jsonWs hch3), ← hb3X]
                            have hfa : b3.length + 1 ≤ F := by
                              simp only [List.length_cons, List.length_append,
                                List.length_nil] at hfuel
                              omega
                            rw [hrep3 F _ hfa (cond_of_ws_append _ c3 _ hw4all
                              ⟨by rw [hrb]; decide, by rw [hrb]; decide,
                               by rw [hrb]; decide, by rw [hrb]; decide⟩)]
                            simp only []
                            rw [skipWs_ws_append _ hw4all c3 hc3ws]
                            simp only []
                            rw [if_neg hcomma, if_pos hrb, ← hv]
                      · rw [if_neg hrb] at h
                        exact absurd h (by simp)
              · rw [if_neg hcol] at h
                exact absurd h (by simp)
        · rw [if_neg hcq] at h
          exact absurd h (by simp)
    | elements acc =>
      simp only [parseCore] at h
      rcases hval : parseCore n PMode.value l with _ | ⟨v1, r3⟩
      · rw [hval] at h
        exact absurd h (by simp)
      · rw [hval] at h
        simp only [] at h
        rcases hsk3 : skipWs r3 with _ | ⟨c3, r4⟩
        · rw [hsk3] at h
          exact absurd h (by simp)
        · rw [hsk3] at h
          simp only [] at h
          obtain ⟨b3, hb3split, hb3ne, ⟨ch3, bt3, hb3head, hch3⟩,
            ⟨cb3, hb3last, hcb3⟩, hrep3⟩ := ih PMode.value l v1 r3 hval
          obtain ⟨hr3dec, hw4all, hc3ws⟩ := skipWs_decomp hsk3
          by_cases hcomma : c3 = ','
          · rw [if_pos hcomma] at h
            obtain ⟨b5, hb5split, hb5ne, ⟨ch5, bt5, hb5head, hch5⟩,
              ⟨cb5, hb5last, hcb5⟩, hrep5⟩ :=
              ih (PMode.elements (acc ++ [v1])) (skipWs r4) v r h
            obtain ⟨hr4dec, hw5all⟩ := skipWs_self_decomp r4
            rw [hb5split] at hr4dec
            refine ⟨b3 ++ (r3.takeWhile isJsonWs ++ (c3 :: (r4.takeWhile isJsonWs ++ b5))),
              ?_, by simp, ?_, ?_, ?_⟩
            · rw [show (b3 ++ (r3.takeWhile isJsonWs ++ (c3 ::
                  (r4.takeWhile isJsonWs ++ b5)))) ++ r =
                  b3 ++ (r3.takeWhile isJsonWs ++ (c3 ::
                  (r4.takeWhile isJsonWs ++ (b5 ++ r)))) from by simp]
              rw [← hr4dec, ← hr3dec]
              exact hb3split
            · refine ⟨ch3, bt3 ++ (r3.takeWhile isJsonWs ++ (c3 ::
                (r4.takeWhile isJsonWs ++ b5))), ?_, hch3⟩
              rw [hb3head]
              simp
            · refine ⟨cb5, ?_, hcb5⟩
              rw [show b3 ++ (r3.takeWhile isJsonWs ++ (c3 ::
                  (r4.takeWhile isJsonWs ++ b5))) =
                  (b3 ++ (r3.takeWhile isJsonWs ++ (c3 :: r4.takeWhile isJsonWs))) ++ b5
                  from by simp,
                getLast?_append_right hb5ne]
              exact hb5last
            · intro fuel2 r2x hfuel hcond
              cases fuel2 with
              | zero => exact absurd hfuel (by omega)
              | succ F =>
                rw [show (b3 ++ (r3.takeWhile isJsonWs ++ (c3 ::
                    (r4.takeWhile isJsonWs ++ b5)))) ++ r2x =
                    b3 ++ (r3.takeWhile isJsonWs ++ (c3 ::
                    (r4.takeWhile isJsonWs ++ (b5 ++ r2x)))) from by simp]
                simp only [parseCore]
                have hfa : b3.length + 1 ≤ F ∧ b5.length + 1 ≤ F := by
                  simp only [List.length_append, List.length_cons] at hfuel
                  omega
                rw [hrep3 F _ hfa.1 (cond_of_ws_append _ c3 _ hw4all
                  ⟨by rw [hcomma]; decide, by rw [hcomma]; decide,
                   by rw [hcomma]; decide, by rw [hcomma]; decide⟩)]
                simp only []
                rw [skipWs_ws_append _ hw4all c3 hc3ws]
                simp only []
                rw [if_pos hcomma]
                have hb5X : b5 ++ r2x = ch5 :: (bt5 ++ r2x) := by
                  rw [hb5head]
                  simp
                rw [show r4.takeWhile isJsonWs ++ (b5 ++ r2x) =
                    r4.takeWhile isJsonWs ++ (ch5 :: (bt5 ++ r2x)) from by rw [hb5X],
                  skipWs_ws_append _ hw5all ch5 (not_jsWs_not_jsonWs hch5), ← hb5X]
                exact hrep5 F r2x hfa.2 hcond
          · rw [if_neg hcomma] at h
            by_cases hrbk : c3 = ']'
            · rw [if_pos hrbk] at h
              obtain ⟨hv, hr⟩ : Json.arr (acc ++ [v1]) = v ∧ r4 = r := by
                simp at h
                exact ⟨h.1, h.2⟩
              subst hr
              refine ⟨b3 ++ (r3.takeWhile isJsonWs ++ [c3]), ?_, by simp, ?_, ?_, ?_⟩
              · rw [show (b3 ++ (r3.takeWhile isJsonWs ++ [c3])) ++ r4 =
                    b3 ++ (r3.takeWhile isJsonWs ++ (c3 :: r4)) from by simp]
                rw [← hr3dec]
                exact hb3split
              · refine ⟨ch3, bt3 ++ (r3.takeWhile isJsonWs ++ [c3]), ?_, hch3⟩
                rw [hb3head]
                simp
              · refine ⟨c3, ?_, by rw [hrbk]; decide⟩
                rw [show b3 ++ (r3.takeWhile isJsonWs ++ [c3]) =
                    (b3 ++ r3.takeWhile isJsonWs) ++ [c3] from by simp]
                exact List.getLast?_concat _
              · intro fuel2 r2x hfuel hcond
                cases fuel2 with
                | zero => exact absurd hfuel (by omega)
                | succ F =>
                  rw [show (b3 ++ (r3.takeWhile isJsonWs ++ [c3])) ++ r2x =
                      b3 ++ (r3.takeWhile isJsonWs ++ (c3 :: r2x)) from by simp]
                  simp only [parseCore]
                  have hfa : b3.length + 1 ≤ F := by
                    simp only [List.length_append, List.length_cons,
                      List.length_nil] at hfuel
                    omega
                  rw [hrep3 F _ hfa (cond_of_ws_append _ c3 _ hw4all
                    ⟨by rw [hrbk]; decide, by rw [hrbk]; decide,
                     by rw [hrbk]; decide, by rw [hrbk]; decide⟩)]
                  simp only []
                  rw [skipWs_ws_append _ hw4all c3 hc3ws]
                  simp only []
                  rw [if_neg hcomma, if_pos hrbk, ← hv]
            · rw [if_neg hrbk] at h
              exact absurd h (by simp)

theorem tailMatch_fenced :
    ∀ (j : String) (c0 : Char) (t0 : List Char),
      skipWs j.data = c0 :: t0 →
      isJsWs c0 = false →
      hasTripleB j.data = false →
      tailMatch (Char.ofNat 10 ::
          (j.data ++ Char.ofNat 10 :: Char.ofNat 96 :: Char.ofNat 96 :: Char.ofNat 96 :: [])) =
        some (stripTrailingWs (skipWs j.data)) := by
  intro j c0 t0 hd hc0 htrip
  have hd' : List.dropWhile isJsonWs j.data = c0 :: t0 := hd
  have hw : ∀ c ∈ j.data.takeWhile isJsonWs, isJsWs c = true := by
    intro c hc
    exact jsonWs_imp_jsWs (List.mem_takeWhile_imp hc)
  have hm : (Char.ofNat 10 ::
        (j.data ++ Char.ofNat 10 :: Char.ofNat 96 :: Char.ofNat 96 :: Char.ofNat 96 :: [])).dropWhile isJsWs
      = (skipWs j.data ++ [Char.ofNat 10]) ++
          Char.ofNat 96 :: Char.ofNat 96 :: Char.ofNat 96 :: [] := by
    rw [List.dropWhile_cons, if_pos (by decide : isJsWs (Char.ofNat 10) = true)]
    conv_lhs => rw [← List.takeWhile_append_dropWhile isJsonWs j.data]
    rw [List.append_assoc, dropWhile_append_of_all _ _ hw, hd', List.cons_append,
      dropWhile_cons_of_neg hc0, hd]
    simp
  have hsuf : skipWs j.data <:+ j.data := List.dropWhile_suffix isJsonWs
  obtain ⟨z, hz⟩ := hsuf
  have htd : hasTripleB (skipWs j.data) = false :=
    hasTripleB_append_right z _ (by rw [hz]; exact htrip)
  have hdne : hasTripleB (skipWs j.data ++ [Char.ofNat 10]) = false :=
    hasTripleB_append_nonbt _ _ htd (by decide)
  have hdlast : ∀ c, (skipWs j.data ++ [Char.ofNat 10]).getLast? = some c →
      isBacktick c = false := by
    intro c hc
    rw [List.getLast?_concat] at hc
    injection hc with hc
    rw [← hc]
    decide
  have hft := findTriple_append_triple (skipWs j.data ++ [Char.ofNat 10]) [] hdne hdlast
  simp only [tailMatch]
  rw [hm, hft]
  show some (stripTrailingWs
      (((skipWs j.data ++ [Char.ofNat 10]) ++
          Char.ofNat 96 :: Char.ofNat 96 :: Char.ofNat 96 :: []).take
        (skipWs j.data ++ [Char.ofNat 10]).length)) = some (stripTrailingWs (skipWs j.data))
  rw [List.take_left,
    stripTrailingWs_append_ws (by decide : isJsWs (Char.ofNat 10) = true)]

theorem stripTrailingWs_append_all_ws (b r : List Char)
    (hrall : ∀ c ∈ r, isJsWs c = true)
    (cb : Char) (hblast : b.getLast? = some cb) (hcb : isJsWs cb = false) :
    stripTrailingWs (b ++ r) = b := by
  simp only [stripTrailingWs, List.reverse_append]
  rw [dropWhile_append_of_all _ _ (fun c hc => hrall c (List.mem_reverse.mp hc))]
  have hhead : b.reverse.head? = some cb := by
    rw [List.head?_reverse]
    exact hblast
  obtain ⟨tl, htl⟩ : ∃ tl, b.reverse = cb :: tl := by
    cases hbrev : b.reverse with
    | nil =>
      rw [hbrev] at hhead
      simp at hhead
    | cons x y =>
      rw [hbrev] at hhead
      injection hhead with hx
      exact ⟨y, by rw [hx]⟩
  rw [htl, dropWhile_cons_of_neg hcb, ← htl, List.reverse_reverse]

theorem data_append' (a b : String) : (a ++ b).data = a.data ++ b.data := rfl

theorem fenceWrap_true_data (j : String) :
    (fenceWrap true j).data =
      Char.ofNat 96 :: Char.ofNat 96 :: Char.ofNat 96 :: 'j' :: 's' :: 'o' :: 'n' ::
        Char.ofNat 10 ::
          (j.data ++ Char.ofNat 10 :: Char.ofNat 96 :: Char.ofNat 96 :: Char.ofNat 96 :: []) := by
  have e3 : "```".data = [Char.ofNat 96, Char.ofNat 96, Char.ofNat 96] := by decide
  have e4 : "json".data = ['j', 's', 'o', 'n'] := by decide
  have e5 : "\n".data = [Char.ofNat 10] := by decide
  have e6 : "\n```".data = [Char.ofNat 10, Char.ofNat 96, Char.ofNat 96, Char.ofNat 96] := by decide
  simp [fenceWrap, data_append', e3, e4, e5, e6]

theorem fenceWrap_false_data (j : String) :
    (fenceWrap false j).data =
      Char.ofNat 96 :: Char.ofNat 96 :: Char.ofNat 96 ::
        Char.ofNat 10 ::
          (j.data ++ Char.ofNat 10 :: Char.ofNat 96 :: Char.ofNat 96 :: Char.ofNat 96 :: []) := by
  have e3 : "```".data = [Char.ofNat 96, Char.ofNat 96, Char.ofNat 96] := by decide
  have e5 : "\n".data = [Char.ofNat 10] := by decide
  have e6 : "\n```".data = [Char.ofNat 10, Char.ofNat 96, Char.ofNat 96, Char.ofNat 96] := by decide
  have e0 : ("" : String).data = [] := by decide
  simp [fenceWrap, data_append', e3, e5, e6, e0]

theorem extractFence_fenceWrap :
    ∀ (tag : Bool) (j : String) (c0 : Char) (t0 : List Char),
      skipWs j.data = c0 :: t0 →
      isJsWs c0 = false →
      hasTripleB j.data = false →
      extractFence (fenceWrap tag j).data = some (stripTrailingWs (skipWs j.data)) := by
  intro tag j c0 t0 hd hc0 htrip
  have htail := tailMatch_fenced j c0 t0 hd hc0 htrip
  have hbt : (isBacktick (Char.ofNat 96) && isBacktick (Char.ofNat 96) &&
      isBacktick (Char.ofNat 96)) = true := by decide
  cases tag with
  | true =>
    rw [fenceWrap_true_data]
    simp only [extractFence, tryFenceAt]
    rw [if_pos hbt]
    have hsj : startsJsonCI ('j' :: 's' :: 'o' :: 'n' :: Char.ofNat 10 ::
        (j.data ++ Char.ofNat 10 :: Char.ofNat 96 :: Char.ofNat 96 :: Char.ofNat 96 :: [])) =
        true := by
      simp [startsJsonCI]
    rw [if_pos hsj]
    rw [show ('j' :: 's' :: 'o' :: 'n' :: Char.ofNat 10 ::
        (j.data ++ Char.ofNat 10 :: Char.ofNat 96 :: Char.ofNat 96 :: Char.ofNat 96 :: [])).drop 4 =
        Char.ofNat 10 ::
          (j.data ++ Char.ofNat 10 :: Char.ofNat 96 :: Char.ofNat 96 :: Char.ofNat 96 :: []) from rfl]
    rw [htail]
  | false =>
    rw [fenceWrap_false_data]
    simp only [extractFence, tryFenceAt]
    rw [if_pos hbt]
    have hsj : startsJsonCI (Char.ofNat 10 ::
        (j.data ++ Char.ofNat 10 :: Char.ofNat 96 :: Char.ofNat 96 :: Char.ofNat 96 :: [])) =
        false := by
      simp [startsJsonCI, show ¬(Char.ofNat 10 = 'j') from by decide,
        show ¬(Char.ofNat 10 = 'J') from by decide]
    rw [if_neg (by simp [hsj])]
    rw [htail]

/-- C4 (amended): the fence round-trip holds for every valid-JSON reply
string that contains no triple-backtick substring: wrapping the string in
a triple-backtick fence (with or without the json tag) and re-parsing
with safeParseJson yields the same value as parsing the bare string.
(The original claim, quantified over all valid-JSON strings, is refuted
by the counterexample: a JSON string literal containing three backticks
makes the lazy fence regex close at the inner backticks.) -/
theorem safeParseJson_fence_roundtrip :
    ∀ (j : String) (v : Json) (tag : Bool),
      parseJson j = some v →
      hasTripleB j.data = false →
      safeParseJson (fenceWrap tag j) = safeParseJson j := by
  intro j v tag hp htrip
  have hp' := hp
  simp only [parseJson] at hp'
  rcases hpc : parseCore ((skipWs j.data).length + 1) PMode.value (skipWs j.data) with _ | pr
  · rw [hpc] at hp'
    simp at hp'
  · obtain ⟨v', r⟩ := pr
    rw [hpc] at hp'
    simp only [Option.ite_none_right_eq_some, Option.some.injEq] at hp'
    obtain ⟨hr, hv⟩ := hp'
    subst hv
    obtain ⟨b, hbsplit, hbne, ⟨ch, bt, hbhead, hch⟩, ⟨cb, hblast, hcb⟩, hrep⟩ :=
      parseCore_spec _ _ _ _ _ hpc
    have hrall : ∀ c ∈ r, isJsWs c = true := by
      intro c hc
      have hr' : List.dropWhile isJsonWs r = [] := hr
      exact jsonWs_imp_jsWs (List.dropWhile_eq_nil_iff.mp hr' c hc)
    have hd : skipWs j.data = ch :: (bt ++ r) := by
      rw [hbsplit, hbhead]
      simp
    have hnone : parseJson (fenceWrap tag j) = none := by
      cases tag
      · exact parseJson_backtick_head _ _ (fenceWrap_false_data j)
      · exact parseJson_backtick_head _ _ (fenceWrap_true_data j)
    have hfence : extractFence (fenceWrap tag j).data =
        some (stripTrailingWs (skipWs j.data)) :=
      extractFence_fenceWrap tag j ch (bt ++ r) hd hch htrip
    have hstrip : stripTrailingWs (skipWs j.data) = b := by
      rw [hbsplit]
      exact stripTrailingWs_append_all_ws b r hrall cb hblast hcb
    have hcap : parseJson (String.mk b) = some v' := by
      have hdata2 : (String.mk b).data = b := rfl
      have hskipb : skipWs b = b := by
        rw [hbhead]
        exact dropWhile_cons_of_neg (not_jsWs_not_jsonWs hch)
      have hpb : parseCore (b.length + 1) PMode.value b = some (v', []) := by
        have hx := hrep (b.length + 1) [] (le_refl _) (Or.inl rfl)
        rwa [List.append_nil] at hx
      simp only [parseJson, hdata2, hskipb, hpb]
      rfl
    have hrhs : safeParseJson j = v' := by simp [safeParseJson, hp]
    rw [hrhs]
    simp [safeParseJson, hnone, hfence, hstrip, hcap]

/-- C4 counterexample: the round-trip fails, as stated, for the valid
JSON string literal containing three backticks.  Unfenced, it parses to
the string value of three backticks; fenced, the lazy regex closes the
fence at the backticks inside the literal, the captured lone quote fails
to parse, and the raw fallback object is returned instead. -/
theorem safeParseJson_fence_counterexample :
    safeParseJson (fenceWrap true "\"```\"") ≠ safeParseJson "\"```\"" := by
  have h1 : safeParseJson (fenceWrap true "\"```\"") =
      Json.obj [("raw", Json.str "```json\n\"```\"\n```")] := rfl
  have h2 : safeParseJson "\"```\"" = Json.str "```" := rfl
  rw [h1, h2]
  intro h
  exact Json.noConfusion h

/-- C4 witness: the amended round-trip applied to the concrete valid-JSON
reply `true` (no triple backticks, no trailing whitespace), wrapped in a
`json`-tagged fence. -/
theorem safeParseJson_fence_roundtrip_witness :
    safeParseJson (fenceWrap true "true") = safeParseJson "true" :=
  safeParseJson_fence_roundtrip "true" (Json.bool true) true rfl (by decide)
